import Mathlib

/-!
Verification of the file-materialization / archival / build-invocation pipeline
of `streamlit_app.py` (functions `create_file_structure`, `create_zip_file`,
`build_apk`, and the archive file name computation).

The embedding models POSIX path strings as lists of characters (`Str`) and the
filesystem as an explicit state `FS`: a flat association list of file paths to
text contents plus a list of directory paths.  A path (`Path`) is the list of
its components after kernel-level resolution (empty and `.` components are
skipped, `..` pops one component; the working directory of the process is the
root of the modelled tree, so relative strings resolve against `[]`).

Modelling notes, checked against CPython semantics:
* `os.path.join(a, b)` (POSIX): returns `b` if `b` is absolute, otherwise `a`
  plus a separator (omitted when `a` is empty or already ends in `/`) plus `b`.
* `os.path.dirname(p)` (POSIX): everything up to the last `/`, with trailing
  slashes stripped unless the head consists only of slashes.
* `os.makedirs(name, exist_ok=True)`: creates every missing ancestor of the
  resolved path; raises if `name` is the empty string or if a component of the
  path already exists as a regular file.  (For inputs containing `..` CPython
  may additionally create intermediate directories while walking the string
  head-chain; this affects only directories, never file contents.)
* `open(path, "w").write(c)`: replaces the file's content; raises if the path
  is a directory or its parent directory does not exist.
* `os.walk(top)`: top-down traversal; errors from `scandir` (nonexistent or
  non-directory `top`) are swallowed because `onerror` is `None`, so the walk
  silently yields nothing in that case.
* `zipfile.ZipFile.write(file_path, arcname)`: one archive entry per call,
  entry name as given (`os.path.relpath(file_path, output_folder)`, which for
  a file below the root is the path with the root prefix dropped).
-/

set_option maxHeartbeats 1000000

namespace App

abbrev Str := List Char

abbrev Path := List Str

/-- Components of a POSIX path string, split at every `/`. -/
def splitOnSlash : Str → List Str
  | [] => [[]]
  | c :: rest =>
    if c = '/' then [] :: splitOnSlash rest
    else
      match splitOnSlash rest with
      | [] => [[c]]
      | h :: t => (c :: h) :: t

/-- Kernel-level resolution of split components against a base path:
empty and `.` components are skipped, `..` pops one component. -/
def normalize (acc : Path) : List Str → Path
  | [] => acc
  | comp :: rest =>
    if comp = [] ∨ comp = ['.'] then normalize acc rest
    else if comp = ['.', '.'] then normalize acc.dropLast rest
    else normalize (acc ++ [comp]) rest

/-- The path a string denotes on the modelled filesystem (working directory =
model root, so relative and absolute strings resolve against `[]`). -/
def resolve (s : Str) : Path := normalize [] (splitOnSlash s)

/-- `os.path.join` for POSIX, two arguments (the only form the code uses). -/
def osJoin (a b : Str) : Str :=
  if b.head? = some '/' then b
  else if a = [] ∨ a.getLast? = some '/' then a ++ b
  else a ++ '/' :: b

/-- Everything up to and including the last `/` of a path string (the `head`
of `posixpath.dirname` before trailing-slash stripping). -/
def slashHead (p : Str) : Str := (p.reverse.dropWhile (fun c => ¬ c = '/')).reverse

/-- Strip trailing slashes. -/
def rstripSlash (s : Str) : Str := (s.reverse.dropWhile (fun c => c = '/')).reverse

/-- `os.path.dirname` for POSIX. -/
def dirname (p : Str) : Str :=
  if slashHead p ≠ [] ∧ ¬ (slashHead p).all (fun c => c = '/') then
    rstripSlash (slashHead p)
  else slashHead p

/-- The modelled filesystem: regular files (path with content, first match
wins on lookup) and directories. -/
structure FS where
  files : List (Path × String)
  dirs : List Path
deriving DecidableEq

/-- First-match lookup of a file's content. -/
def lookupF : List (Path × String) → Path → Option String
  | [], _ => none
  | qc :: rest, p => if qc.1 = p then some qc.2 else lookupF rest p

/-- Keys of the file association list. -/
def keysF (l : List (Path × String)) : List Path := l.map Prod.fst

/-- Overwrite the first entry with the given key, or append a fresh one:
the effect of writing a file. -/
def setFile : List (Path × String) → Path → String → List (Path × String)
  | [], p, c => [(p, c)]
  | qc :: rest, p, c => if qc.1 = p then (p, c) :: rest else qc :: setFile rest p c

/-- All prefixes of a path, from `[]` up to the path itself. -/
def prefixesOf (p : Path) : List Path :=
  (List.range (p.length + 1)).map (fun k => p.take k)

/-- Core of `os.makedirs(·, exist_ok=True)` on a resolved path: errors when a
component already exists as a regular file, otherwise records every missing
ancestor (and the path itself) as a directory. -/
def mkdirsP (fs : FS) (p : Path) : Except String FS :=
  if (prefixesOf p).any (fun q => (lookupF fs.files q).isSome) then
    .error "FileExistsError"
  else
    .ok { fs with dirs := fs.dirs ++ (prefixesOf p).filter (fun q => decide (q ∉ fs.dirs)) }

/-- `os.makedirs(name, exist_ok=True)` on a path string: the empty string is
rejected (CPython raises `FileNotFoundError` from `mkdir("")`). -/
def makedirs (fs : FS) (name : Str) : Except String FS :=
  if name = [] then .error "FileNotFoundError" else mkdirsP fs (resolve name)

/-- Core of `open(path, "w")` followed by `write(content)` on a resolved path. -/
def writeFileP (fs : FS) (p : Path) (c : String) : Except String FS :=
  if p ∈ fs.dirs then .error "IsADirectoryError"
  else if p.dropLast ∈ fs.dirs then .ok { fs with files := setFile fs.files p c }
  else .error "FileNotFoundError"

/-- `open(path, "w"); write(content)` on a path string. -/
def openWrite (fs : FS) (s : Str) (c : String) : Except String FS :=
  if s = [] then .error "FileNotFoundError" else writeFileP fs (resolve s) c

/-- `create_file_structure(app_code, output_folder)` from `streamlit_app.py`:
for each `(file_name, file_content)` pair, join the name onto the output
folder, `os.makedirs(os.path.dirname(file_path), exist_ok=True)`, then write
the content (UTF-8 text, modelled as the `String` itself). -/
def create_file_structure (app_code : List (Str × String)) (output_folder : Str)
    (fs : FS) : Except String FS :=
  app_code.foldlM
    (fun fs fc =>
      let file_path := osJoin output_folder fc.1
      do
        let fs ← makedirs fs (dirname file_path)
        openWrite fs file_path fc.2)
    fs

/-- Subdirectories directly inside `p`, as `os.scandir` would list them. -/
def childDirs (fs : FS) (p : Path) : List Path :=
  fs.dirs.filter (fun d => decide (d.length = p.length + 1 ∧ p <+: d))

/-- Files directly inside `p`, with their contents. -/
def childFiles (fs : FS) (p : Path) : List (Path × String) :=
  fs.files.filter (fun fc => decide (fc.1.length = p.length + 1 ∧ p <+: fc.1))

/-- Fuel bound for the walk: no directory path is longer than this. -/
def maxDirLen (fs : FS) : Nat := fs.dirs.foldr (fun d m => max d.length m) 0

/-- Top-down traversal step of `os.walk`: yield the current directory with its
files, then recurse into each subdirectory. -/
def walkAux (fs : FS) : Nat → Path → List (Path × List (Path × String))
  | 0, _ => []
  | n + 1, p => (p, childFiles fs p) :: (childDirs fs p).flatMap (walkAux fs n)

/-- `os.walk(top)`: yields nothing when `top` is not an existing directory
(the `scandir` error is swallowed since `onerror=None`). -/
def walk (fs : FS) (top : Path) : List (Path × List (Path × String)) :=
  if top ∈ fs.dirs then walkAux fs (maxDirLen fs + 1) top else []

/-- `create_zip_file(output_folder)` from `streamlit_app.py`: walk the folder
and add one entry per file, named `os.path.relpath(file_path, output_folder)`
(the path with the root prefix dropped), carrying the file's bytes. -/
def create_zip_file (fs : FS) (output_folder : Str) : List (Path × String) :=
  (walk fs (resolve output_folder)).flatMap
    (fun df => df.2.map (fun fc => (fc.1.drop (resolve output_folder).length, fc.2)))

/-- From the spec's words (§8): the relative paths of the regular files
strictly under a root, with their contents.  Used to compare the archive's
entry set against the files present under the root. -/
def filesUnderSpec (fs : FS) (root : Path) : List (Path × String) :=
  fs.files.filterMap
    (fun fc => if root <+: fc.1 ∧ root.length < fc.1.length then
        some (fc.1.drop root.length, fc.2)
      else none)

/-- An empty destination tree: no files, the root and its ancestors exist as
directories. -/
def freshTree (root : Path) : FS := ⟨[], prefixesOf root⟩

/-- Modelled from the spec (§8 round-trip): extracting an archive into a
destination directory writes every entry's content at `dest ++ entry name`,
creating parent directories first.  No extractor exists in the repository;
this follows the spec's description of extraction. -/
def extractArchive (entries : List (Path × String)) (dest : Path) (fs : FS) :
    Except String FS :=
  entries.foldlM
    (fun fs ec => do
      let fs ← mkdirsP fs (dest ++ ec.1).dropLast
      writeFileP fs (dest ++ ec.1) ec.2)
    fs

/-- Real-filesystem wellformedness of an `FS` state: no duplicate paths,
the root exists, directories are closed under parents, every file's parent is
a directory, and no path is both a file and a directory. -/
def WF (fs : FS) : Prop :=
  (keysF fs.files).Nodup ∧ fs.dirs.Nodup ∧ [] ∈ fs.dirs ∧
  (∀ d ∈ fs.dirs, d.dropLast ∈ fs.dirs) ∧
  (∀ p ∈ keysF fs.files, p.dropLast ∈ fs.dirs) ∧
  (∀ p ∈ keysF fs.files, p ∉ fs.dirs)

/-- `os.path.exists` on the modelled filesystem. -/
def pathExistsB (fs : FS) (p : Path) : Bool :=
  (lookupF fs.files p).isSome || decide (p ∈ fs.dirs)

/-- Outcome of `subprocess.run(["./gradlew", "assembleDebug"], ...)` together
with the filesystem state after the external process finished: either the
process completed with an exit code and captured output, or the invocation
raised (e.g. `FileNotFoundError` when `./gradlew` is missing). -/
inductive ProcOutcome where
  | completed (returncode : Int) (stdout stderr : String) (fsAfter : FS)
  | raised (msg : String)
deriving DecidableEq

/-- The hardcoded artifact location checked by `build_apk`. -/
def apkRelStr : Str := "app/build/outputs/apk/debug/app-debug.apk".toList

/-- `build_apk(output_folder)` from `streamlit_app.py`.  Returns the value
handed to the caller (`Some` artifact path or `None`) together with the
`st.error` diagnostics emitted along the way. -/
def build_apk (outcome : ProcOutcome) (output_folder : Str) :
    Option Str × List String :=
  match outcome with
  | .raised e => (none, ["Error during APK build: " ++ e])
  | .completed rc _ err fsAfter =>
    if rc ≠ 0 then (none, ["APK build failed: " ++ err])
    else
      let apk_path := osJoin output_folder apkRelStr
      if pathExistsB fsAfter (resolve apk_path) then (some apk_path, [])
      else (none, ["APK file not found after build."])

/-- A wall-clock timestamp as `datetime.now()` delivers it. -/
structure DateTime where
  (year : Nat) (month : Nat) (day : Nat) (hour : Nat) (minute : Nat) (second : Nat)

/-- Two zero-padded decimal digits, as `strftime` renders `%m`, `%d`, `%H`,
`%M`, `%S` for in-range field values. -/
def pad2 (n : Nat) : String := String.mk [Nat.digitChar (n / 10), Nat.digitChar (n % 10)]

/-- Four zero-padded decimal digits, as `strftime` renders `%Y` for years in
range. -/
def pad4 (n : Nat) : String :=
  String.mk [Nat.digitChar (n / 1000 % 10), Nat.digitChar (n / 100 % 10),
    Nat.digitChar (n / 10 % 10), Nat.digitChar (n % 10)]

/-- `datetime.now().strftime('%Y%m%d_%H%M%S')`. -/
def strftimeOut (t : DateTime) : String :=
  pad4 t.year ++ pad2 t.month ++ pad2 t.day ++ "_" ++ pad2 t.hour ++ pad2 t.minute
    ++ pad2 t.second

/-- The archive file name computation (`streamlit_app.py` lines 183-184). -/
def zip_file_name (timestamp_output : Bool) (now : DateTime) : String :=
  let timestamp := if timestamp_output then "_" ++ strftimeOut now else ""
  "android_app" ++ timestamp ++ ".zip"

/-- Path components that survive resolution unchanged. -/
def safeComp (c : Str) : Prop := c ≠ [] ∧ c ≠ ['.'] ∧ c ≠ ['.', '.']

/-- A relative file name all of whose slash-separated components are plain
names (nonempty, not `.` or `..`). -/
def safeName (f : Str) : Prop := ∀ c ∈ splitOnSlash f, safeComp c

instance (c : Str) : Decidable (safeComp c) := by
  unfold safeComp
  infer_instance

instance (f : Str) : Decidable (safeName f) := by
  unfold safeName
  infer_instance

instance (fs : FS) : Decidable (WF fs) := by
  unfold WF
  infer_instance

/-- The per-entry action of `create_file_structure` (loop body of the `for`). -/
def stepWrite (output_folder : Str) (fs : FS) (fc : Str × String) : Except String FS := do
  let fs ← makedirs fs (dirname (osJoin output_folder fc.1))
  openWrite fs (osJoin output_folder fc.1) fc.2

/-- A filesystem with one file's content overwritten (or created). -/
def FS.setF (fs : FS) (p : Path) (c : String) : FS :=
  { fs with files := setFile fs.files p c }

/-- The resolved path at which `create_file_structure` writes a given file
name: `resolve (os.path.join(output_folder, file_name))`. -/
def wkey (D f : Str) : Path := resolve (osJoin D f)

/-- The per-entry action of `extractArchive` (loop body). -/
def stepExtract (dest : Path) (fs : FS) (ec : Path × String) : Except String FS := do
  let fs ← mkdirsP fs (dest ++ ec.1).dropLast
  writeFileP fs (dest ++ ec.1) ec.2

/-- Facts preserved from an earlier filesystem state to a later one along a
run of the pipeline: directories and file paths persist, a file path never
becomes a directory, a directory never becomes a file. -/
def Pres (a b : FS) : Prop :=
  a.dirs ⊆ b.dirs ∧ keysF a.files ⊆ keysF b.files ∧
  (∀ p ∈ keysF a.files, p ∉ a.dirs → p ∉ b.dirs) ∧
  (∀ q ∈ a.dirs, q ∉ keysF a.files → q ∉ keysF b.files)

/-! ### Association-list lemmas -/

@[simp] theorem keysF_nil : keysF ([] : List (Path × String)) = [] := rfl

@[simp] theorem keysF_cons (qc : Path × String) (l : List (Path × String)) :
    keysF (qc :: l) = qc.1 :: keysF l := rfl

@[simp] theorem keysF_append (l₁ l₂ : List (Path × String)) :
    keysF (l₁ ++ l₂) = keysF l₁ ++ keysF l₂ := by
  simp [keysF]

theorem lookupF_isSome_iff (l : List (Path × String)) (p : Path) :
    (lookupF l p).isSome = true ↔ p ∈ keysF l := by
  induction l with
  | nil => simp [lookupF]
  | cons qc rest ih =>
    by_cases h : qc.1 = p <;> simp [lookupF, h, ih]
    exact fun hq => (h hq.symm).elim

theorem lookupF_eq_none_iff (l : List (Path × String)) (p : Path) :
    lookupF l p = none ↔ p ∉ keysF l := by
  rw [← lookupF_isSome_iff]
  cases lookupF l p <;> simp

theorem lookupF_append_left (l₁ l₂ : List (Path × String)) (p : Path)
    (h : p ∈ keysF l₁) : lookupF (l₁ ++ l₂) p = lookupF l₁ p := by
  induction l₁ with
  | nil => simp at h
  | cons qc rest ih =>
    by_cases hq : qc.1 = p
    · simp [lookupF, hq]
    · simp only [keysF_cons, List.mem_cons] at h
      rcases h with h | h
      · exact (hq h.symm).elim
      · simp [lookupF, hq, ih h]

theorem setFile_not_mem (l : List (Path × String)) (p : Path) (c : String)
    (h : p ∉ keysF l) : setFile l p c = l ++ [(p, c)] := by
  induction l with
  | nil => simp [setFile]
  | cons qc rest ih =>
    simp only [keysF_cons, List.mem_cons] at h
    push_neg at h
    have hq : ¬ qc.1 = p := fun hq => h.1 hq.symm
    simp [setFile, hq, ih h.2]

theorem keysF_setFile_of_mem (l : List (Path × String)) (p : Path) (c : String)
    (h : p ∈ keysF l) : keysF (setFile l p c) = keysF l := by
  induction l with
  | nil => simp at h
  | cons qc rest ih =>
    by_cases hq : qc.1 = p
    · simp [setFile, hq]
    · simp only [keysF_cons, List.mem_cons] at h
      rcases h with h | h
      · exact (hq h.symm).elim
      · simp [setFile, hq, ih h]

theorem keysF_setFile_not_mem (l : List (Path × String)) (p : Path) (c : String)
    (h : p ∉ keysF l) : keysF (setFile l p c) = keysF l ++ [p] := by
  rw [setFile_not_mem l p c h]
  simp

theorem mem_keysF_setFile_self (l : List (Path × String)) (p : Path) (c : String) :
    p ∈ keysF (setFile l p c) := by
  by_cases h : p ∈ keysF l
  · rw [keysF_setFile_of_mem l p c h]; exact h
  · rw [keysF_setFile_not_mem l p c h]; simp

theorem keysF_subset_setFile (l : List (Path × String)) (p : Path) (c : String) :
    keysF l ⊆ keysF (setFile l p c) := by
  by_cases h : p ∈ keysF l
  · rw [keysF_setFile_of_mem l p c h]; exact fun x hx => hx
  · rw [keysF_setFile_not_mem l p c h]; exact List.subset_append_left _ _


theorem lookupF_setFile_self (l : List (Path × String)) (p : Path) (c : String) :
    lookupF (setFile l p c) p = some c := by
  induction l with
  | nil => simp [setFile, lookupF]
  | cons qc rest ih =>
    by_cases hq : qc.1 = p <;> simp [setFile, lookupF, hq, ih]

theorem lookupF_setFile_ne (l : List (Path × String)) (p q : Path) (c : String)
    (h : q ≠ p) : lookupF (setFile l p c) q = lookupF l q := by
  have hpq : ¬ p = q := fun hh => h hh.symm
  induction l with
  | nil => simp [setFile, lookupF, hpq]
  | cons qc rest ih =>
    by_cases hq : qc.1 = p
    · simp [setFile, lookupF, hq, hpq]
    · by_cases hq2 : qc.1 = q <;> simp [setFile, lookupF, hq, hq2, hpq, h, ih]

theorem setFile_setFile_self (l : List (Path × String)) (p : Path) (c c₂ : String) :
    setFile (setFile l p c) p c₂ = setFile l p c₂ := by
  induction l with
  | nil => simp [setFile]
  | cons qc rest ih =>
    by_cases hq : qc.1 = p <;> simp [setFile, hq, ih]

theorem setFile_comm (l : List (Path × String)) (p k : Path) (c c₀ : String)
    (hne : k ≠ p) (hp : p ∈ keysF l) :
    setFile (setFile l p c) k c₀ = setFile (setFile l k c₀) p c := by
  induction l with
  | nil => simp at hp
  | cons qc rest ih =>
    by_cases hq : qc.1 = p
    · simp [setFile, hq, fun h : k = p => hne h, Ne.symm hne]
    · simp only [keysF_cons, List.mem_cons] at hp
      rcases hp with hp | hp
      · exact (hq hp.symm).elim
      · by_cases hk : qc.1 = k
        · simp [setFile, hq, hk, hne, fun h : p = k => hne h.symm]
        · simp [setFile, hq, hk, ih hp]

theorem setFile_eq_self (l : List (Path × String)) (p : Path) (c : String)
    (h : lookupF l p = some c) : setFile l p c = l := by
  induction l with
  | nil => simp [lookupF] at h
  | cons qc rest ih =>
    by_cases hq : qc.1 = p
    · simp only [lookupF, if_pos hq] at h
      subst hq
      cases h
      simp [setFile]
    · simp only [lookupF, if_neg hq] at h
      simp [setFile, hq, ih h]

theorem keysF_setFile_nodup (l : List (Path × String)) (p : Path) (c : String)
    (h : (keysF l).Nodup) : (keysF (setFile l p c)).Nodup := by
  by_cases hm : p ∈ keysF l
  · rw [keysF_setFile_of_mem l p c hm]; exact h
  · rw [keysF_setFile_not_mem l p c hm]
    exact List.Nodup.append h (List.nodup_singleton p)
      (fun a ha hb => hm (List.mem_singleton.mp hb ▸ ha))

/-! ### Except and fold plumbing -/

theorem exceptBind_ok {α β : Type} (x : Except String α) (f : α → Except String β)
    (b : β) : (x >>= f) = .ok b ↔ ∃ a, x = .ok a ∧ f a = .ok b := by
  cases x <;> simp [Bind.bind, Except.bind]

theorem cfs_nil (D : Str) (fs : FS) : create_file_structure [] D fs = .ok fs := rfl

theorem cfs_cons (fc : Str × String) (rest : List (Str × String)) (D : Str) (fs : FS) :
    create_file_structure (fc :: rest) D fs =
      (stepWrite D fs fc) >>= fun g => create_file_structure rest D g := rfl

theorem extract_nil (dest : Path) (fs : FS) : extractArchive [] dest fs = .ok fs := rfl

theorem extract_cons (ec : Path × String) (rest : List (Path × String)) (dest : Path)
    (fs : FS) :
    extractArchive (ec :: rest) dest fs =
      (stepExtract dest fs ec) >>= fun g => extractArchive rest dest g := rfl

/-! ### prefixesOf lemmas -/

theorem mem_prefixesOf (q p : Path) : q ∈ prefixesOf p ↔ q <+: p := by
  constructor
  · intro h
    simp only [prefixesOf, List.mem_map, List.mem_range] at h
    obtain ⟨k, _, rfl⟩ := h
    exact List.take_prefix k p
  · intro h
    simp only [prefixesOf, List.mem_map, List.mem_range]
    refine ⟨q.length, Nat.lt_succ_of_le h.length_le, ?_⟩
    exact (List.prefix_iff_eq_take.mp h).symm

theorem self_mem_prefixesOf (p : Path) : p ∈ prefixesOf p :=
  (mem_prefixesOf p p).mpr (List.prefix_refl p)

theorem nil_mem_prefixesOf (p : Path) : [] ∈ prefixesOf p :=
  (mem_prefixesOf [] p).mpr List.nil_prefix

theorem prefixesOf_nodup (p : Path) : (prefixesOf p).Nodup := by
  refine List.Nodup.map_on ?_ (List.nodup_range _)
  intro a ha b hb hab
  simp only [List.mem_range, Nat.lt_succ_iff] at ha hb
  have : (p.take a).length = (p.take b).length := by rw [hab]
  simpa [List.length_take, Nat.min_eq_left ha, Nat.min_eq_left hb] using this

/-! ### Operation-level inversion lemmas -/

theorem mkdirsP_cond (fs : FS) (p : Path) :
    ((prefixesOf p).any (fun q => (lookupF fs.files q).isSome) = true) ↔
      ∃ q ∈ prefixesOf p, q ∈ keysF fs.files := by
  simp [List.any_eq_true, lookupF_isSome_iff]

theorem mkdirsP_ok_iff (fs : FS) (p : Path) (g : FS) :
    mkdirsP fs p = .ok g ↔
      (∀ q ∈ prefixesOf p, q ∉ keysF fs.files) ∧
      g = { fs with dirs := fs.dirs ++ (prefixesOf p).filter (fun q => decide (q ∉ fs.dirs)) } := by
  unfold mkdirsP
  split_ifs with hc
  · rw [mkdirsP_cond] at hc
    constructor
    · intro h; exact absurd h (by simp)
    · rintro ⟨hall, -⟩
      obtain ⟨q, hq, hk⟩ := hc
      exact (hall q hq hk).elim
  · rw [mkdirsP_cond] at hc
    push_neg at hc
    constructor
    · intro h
      refine ⟨hc, ?_⟩
      exact (Except.ok.injEq _ _ ▸ h).symm
    · rintro ⟨-, rfl⟩; rfl

theorem mkdirsP_ok_files {fs g : FS} {p : Path} (h : mkdirsP fs p = .ok g) :
    g.files = fs.files := by
  obtain ⟨-, rfl⟩ := (mkdirsP_ok_iff fs p g).mp h; rfl

theorem mkdirsP_ok_no_file {fs g : FS} {p : Path} (h : mkdirsP fs p = .ok g) :
    ∀ q ∈ prefixesOf p, q ∉ keysF fs.files :=
  ((mkdirsP_ok_iff fs p g).mp h).1

theorem mkdirsP_ok_dirs_sup {fs g : FS} {p : Path} (h : mkdirsP fs p = .ok g) :
    fs.dirs ⊆ g.dirs := by
  obtain ⟨-, rfl⟩ := (mkdirsP_ok_iff fs p g).mp h
  exact List.subset_append_left _ _

theorem mkdirsP_ok_target {fs g : FS} {p : Path} (h : mkdirsP fs p = .ok g) :
    ∀ q ∈ prefixesOf p, q ∈ g.dirs := by
  obtain ⟨-, rfl⟩ := (mkdirsP_ok_iff fs p g).mp h
  intro q hq
  by_cases hm : q ∈ fs.dirs
  · exact List.mem_append_left _ hm
  · exact List.mem_append_right _ (List.mem_filter.mpr ⟨hq, by simpa using hm⟩)

theorem mkdirsP_ok_dirs_cases {fs g : FS} {p : Path} (h : mkdirsP fs p = .ok g) :
    ∀ d ∈ g.dirs, d ∈ fs.dirs ∨ d <+: p := by
  obtain ⟨-, rfl⟩ := (mkdirsP_ok_iff fs p g).mp h
  intro d hd
  rcases List.mem_append.mp hd with hd | hd
  · exact Or.inl hd
  · exact Or.inr ((mem_prefixesOf d p).mp (List.mem_filter.mp hd).1)

theorem mkdirsP_ok_new_dir {fs g : FS} {p : Path} (h : mkdirsP fs p = .ok g) :
    ∀ d ∈ g.dirs, d ∉ fs.dirs → d ∉ keysF fs.files := by
  intro d hd hnew
  rcases mkdirsP_ok_dirs_cases h d hd with hf | hf
  · exact (hnew hf).elim
  · exact mkdirsP_ok_no_file h d ((mem_prefixesOf d p).mpr hf)

theorem mkdirsP_ok_nodup {fs g : FS} {p : Path} (h : mkdirsP fs p = .ok g)
    (hn : fs.dirs.Nodup) : g.dirs.Nodup := by
  obtain ⟨-, rfl⟩ := (mkdirsP_ok_iff fs p g).mp h
  refine List.Nodup.append hn (List.Nodup.filter _ (prefixesOf_nodup p)) ?_
  intro d hd hdf
  exact (by simpa using (List.mem_filter.mp hdf).2 : d ∉ fs.dirs) hd

theorem mkdirsP_noop {fs : FS} {p : Path}
    (h1 : ∀ q ∈ prefixesOf p, q ∈ fs.dirs)
    (h2 : ∀ q ∈ prefixesOf p, q ∉ keysF fs.files) : mkdirsP fs p = .ok fs := by
  rw [mkdirsP_ok_iff]
  refine ⟨h2, ?_⟩
  have : (prefixesOf p).filter (fun q => decide (q ∉ fs.dirs)) = [] := by
    rw [List.filter_eq_nil_iff]
    intro q hq
    simpa using h1 q hq
  rw [this]
  cases fs
  simp

theorem writeFileP_ok_iff (fs : FS) (p : Path) (c : String) (g : FS) :
    writeFileP fs p c = .ok g ↔
      p ∉ fs.dirs ∧ p.dropLast ∈ fs.dirs ∧
        g = { fs with files := setFile fs.files p c } := by
  unfold writeFileP
  split_ifs with h1 h2
  · constructor
    · intro h; exact absurd h (by simp)
    · rintro ⟨hh, -, -⟩; exact (hh h1).elim
  · constructor
    · intro h
      refine ⟨h1, h2, (Except.ok.injEq _ _ ▸ h).symm⟩
    · rintro ⟨-, -, rfl⟩; rfl
  · constructor
    · intro h; exact absurd h (by simp)
    · rintro ⟨-, hh, -⟩; exact (h2 hh).elim

theorem makedirs_ok_iff (fs : FS) (name : Str) (g : FS) :
    makedirs fs name = .ok g ↔ name ≠ [] ∧ mkdirsP fs (resolve name) = .ok g := by
  unfold makedirs
  split_ifs with h
  · simp [h]
  · simp [h]

theorem openWrite_ok_iff (fs : FS) (s : Str) (c : String) (g : FS) :
    openWrite fs s c = .ok g ↔ s ≠ [] ∧ writeFileP fs (resolve s) c = .ok g := by
  unfold openWrite
  split_ifs with h
  · simp [h]
  · simp [h]

/-! ### Preservation along runs -/

theorem pres_rfl (fs : FS) : Pres fs fs :=
  ⟨fun _ h => h, fun _ h => h, fun _ _ h => h, fun _ _ h => h⟩

theorem pres_trans {a b c : FS} (h1 : Pres a b) (h2 : Pres b c) : Pres a c := by
  obtain ⟨d1, k1, f1, g1⟩ := h1
  obtain ⟨d2, k2, f2, g2⟩ := h2
  refine ⟨fun x hx => d2 (d1 hx), fun x hx => k2 (k1 hx), ?_, ?_⟩
  · intro p hp hnd
    exact f2 p (k1 hp) (f1 p hp hnd)
  · intro q hq hnk
    exact g2 q (d1 hq) (g1 q hq hnk)

theorem pres_mkdirsP {fs g : FS} {p : Path} (h : mkdirsP fs p = .ok g) : Pres fs g := by
  have hf := mkdirsP_ok_files h
  refine ⟨mkdirsP_ok_dirs_sup h, by rw [hf]; exact fun x hx => hx, ?_, ?_⟩
  · intro q hq hnd hmem
    exact mkdirsP_ok_new_dir h q hmem hnd hq
  · intro q _ hnk
    rw [hf]
    exact hnk

theorem pres_writeFileP {fs g : FS} {p : Path} {c : String}
    (h : writeFileP fs p c = .ok g) : Pres fs g := by
  obtain ⟨h1, h2, rfl⟩ := (writeFileP_ok_iff fs p c g).mp h
  refine ⟨fun x hx => hx, keysF_subset_setFile _ _ _, fun _ _ hnd => hnd, ?_⟩
  · intro q hq hnk hmem
    by_cases hm : p ∈ keysF fs.files
    · rw [keysF_setFile_of_mem _ _ _ hm] at hmem
      exact hnk hmem
    · rw [keysF_setFile_not_mem _ _ _ hm] at hmem
      rcases List.mem_append.mp hmem with hmem | hmem
      · exact hnk hmem
      · exact h1 (List.mem_singleton.mp hmem ▸ hq)

theorem pres_stepWrite {fs g : FS} {D : Str} {fc : Str × String}
    (h : stepWrite D fs fc = .ok g) : Pres fs g := by
  unfold stepWrite at h
  rw [exceptBind_ok] at h
  obtain ⟨m, hm, hw⟩ := h
  obtain ⟨-, hm⟩ := (makedirs_ok_iff _ _ _).mp hm
  obtain ⟨-, hw⟩ := (openWrite_ok_iff _ _ _ _).mp hw
  exact pres_trans (pres_mkdirsP hm) (pres_writeFileP hw)

theorem pres_cfs {F : List (Str × String)} {D : Str} {fs g : FS}
    (h : create_file_structure F D fs = .ok g) : Pres fs g := by
  induction F generalizing fs with
  | nil => rw [cfs_nil] at h; cases h; exact pres_rfl _
  | cons fc rest ih =>
    rw [cfs_cons, exceptBind_ok] at h
    obtain ⟨m, hm, hrest⟩ := h
    exact pres_trans (pres_stepWrite hm) (ih hrest)

theorem pres_stepExtract {fs g : FS} {dest : Path} {ec : Path × String}
    (h : stepExtract dest fs ec = .ok g) : Pres fs g := by
  unfold stepExtract at h
  rw [exceptBind_ok] at h
  obtain ⟨m, hm, hw⟩ := h
  exact pres_trans (pres_mkdirsP hm) (pres_writeFileP hw)

theorem pres_extract {E : List (Path × String)} {dest : Path} {fs g : FS}
    (h : extractArchive E dest fs = .ok g) : Pres fs g := by
  induction E generalizing fs with
  | nil => rw [extract_nil] at h; cases h; exact pres_rfl _
  | cons ec rest ih =>
    rw [extract_cons, exceptBind_ok] at h
    obtain ⟨m, hm, hrest⟩ := h
    exact pres_trans (pres_stepExtract hm) (ih hrest)

/-! ### Commutation of the pipeline steps with a file overwrite -/

theorem lookupF_setFile_isSome (l : List (Path × String)) (p q : Path) (c : String)
    (hp : p ∈ keysF l) :
    (lookupF (setFile l p c) q).isSome = (lookupF l q).isSome := by
  by_cases hq : q = p
  · subst hq
    rw [lookupF_setFile_self]
    exact ((lookupF_isSome_iff l q).mpr hp).symm
  · rw [lookupF_setFile_ne l p q c hq]

theorem mkdirsP_setF (fs : FS) (p t : Path) (c : String) (hp : p ∈ keysF fs.files) :
    mkdirsP (fs.setF p c) t = Except.map (fun g => g.setF p c) (mkdirsP fs t) := by
  unfold mkdirsP
  have hcond : ∀ l : List Path, (l.any (fun q => (lookupF (fs.setF p c).files q).isSome)) =
      (l.any (fun q => (lookupF fs.files q).isSome)) := by
    intro l
    induction l with
    | nil => rfl
    | cons a l ih =>
      simp only [List.any_cons]
      rw [ih, show (fs.setF p c).files = setFile fs.files p c from rfl,
        lookupF_setFile_isSome fs.files p a c hp]
  rw [hcond (prefixesOf t)]
  split_ifs with h
  · rfl
  · simp only [Except.map]
    have : (fs.setF p c).dirs = fs.dirs := rfl
    rw [this]
    rfl

theorem makedirs_setF (fs : FS) (p : Path) (name : Str) (c : String)
    (hp : p ∈ keysF fs.files) :
    makedirs (fs.setF p c) name = Except.map (fun g => g.setF p c) (makedirs fs name) := by
  unfold makedirs
  split_ifs with h
  · rfl
  · exact mkdirsP_setF fs p (resolve name) c hp

theorem writeFileP_setF_absorb (fs : FS) (p : Path) (c c₀ : String) :
    writeFileP (fs.setF p c) p c₀ = writeFileP fs p c₀ := by
  unfold writeFileP
  have hd : (fs.setF p c).dirs = fs.dirs := rfl
  rw [hd]
  split_ifs with h1 h2
  · rfl
  · show Except.ok (FS.setF (fs.setF p c) p c₀) = Except.ok (fs.setF p c₀)
    have : (fs.setF p c).setF p c₀ = fs.setF p c₀ := by
      cases fs
      simp [FS.setF, setFile_setFile_self]
    rw [this]
  · rfl

theorem writeFileP_setF_comm (fs : FS) (p k : Path) (c c₀ : String)
    (hne : k ≠ p) (hp : p ∈ keysF fs.files) :
    writeFileP (fs.setF p c) k c₀ =
      Except.map (fun g => g.setF p c) (writeFileP fs k c₀) := by
  unfold writeFileP
  have hd : (fs.setF p c).dirs = fs.dirs := rfl
  rw [hd]
  split_ifs with h1 h2
  · rfl
  · show Except.ok (FS.setF (fs.setF p c) k c₀) =
      Except.map (fun g => g.setF p c) (Except.ok (fs.setF k c₀))
    have : (fs.setF p c).setF k c₀ = (fs.setF k c₀).setF p c := by
      cases fs
      simp only [FS.setF]
      exact congrArg (fun l => FS.mk l _) (setFile_comm _ p k c c₀ hne hp)
    rw [this]
    rfl
  · rfl

theorem openWrite_setF_absorb (fs : FS) (p : Path) (s : Str) (c c₀ : String)
    (hres : resolve s = p) : openWrite (fs.setF p c) s c₀ = openWrite fs s c₀ := by
  unfold openWrite
  split_ifs with h
  · rfl
  · rw [hres, writeFileP_setF_absorb]

theorem openWrite_setF_comm (fs : FS) (p : Path) (s : Str) (c c₀ : String)
    (hres : resolve s ≠ p) (hp : p ∈ keysF fs.files) :
    openWrite (fs.setF p c) s c₀ =
      Except.map (fun g => g.setF p c) (openWrite fs s c₀) := by
  unfold openWrite
  split_ifs with h
  · rfl
  · exact writeFileP_setF_comm fs p (resolve s) c c₀ hres hp

theorem stepWrite_setF_absorb (fs : FS) (D : Str) (fc : Str × String) (p : Path)
    (c : String) (hk : wkey D fc.1 = p) (hp : p ∈ keysF fs.files) :
    stepWrite D (fs.setF p c) fc = stepWrite D fs fc := by
  unfold stepWrite
  rw [makedirs_setF fs p _ c hp]
  cases h : makedirs fs (dirname (osJoin D fc.1)) with
  | error e => rfl
  | ok m =>
    show openWrite (m.setF p c) (osJoin D fc.1) fc.2 = openWrite m (osJoin D fc.1) fc.2
    exact openWrite_setF_absorb m p _ c fc.2 hk

theorem stepWrite_setF_comm (fs : FS) (D : Str) (fc : Str × String) (p : Path)
    (c : String) (hk : wkey D fc.1 ≠ p) (hp : p ∈ keysF fs.files) :
    stepWrite D (fs.setF p c) fc =
      Except.map (fun g => g.setF p c) (stepWrite D fs fc) := by
  unfold stepWrite
  rw [makedirs_setF fs p _ c hp]
  cases h : makedirs fs (dirname (osJoin D fc.1)) with
  | error e => rfl
  | ok m =>
    show openWrite (m.setF p c) (osJoin D fc.1) fc.2 =
      Except.map (fun g => g.setF p c) (openWrite m (osJoin D fc.1) fc.2)
    have hkeys : p ∈ keysF m.files := by
      obtain ⟨-, hmk⟩ := (makedirs_ok_iff _ _ _).mp h
      rw [mkdirsP_ok_files hmk]
      exact hp
    exact openWrite_setF_comm m p _ c fc.2 hk hkeys

/-- Overwriting a key that a later entry of the run rewrites anyway does not
change the final state of a successful run. -/
theorem cfs_setF_absorb (F : List (Str × String)) (D : Str) (fs g : FS) (p : Path)
    (c : String) (hp : p ∈ keysF fs.files) (hex : ∃ fc ∈ F, wkey D fc.1 = p)
    (h : create_file_structure F D fs = .ok g) :
    create_file_structure F D (fs.setF p c) = .ok g := by
  induction F generalizing fs with
  | nil => simp at hex
  | cons fc rest ih =>
    rw [cfs_cons, exceptBind_ok] at h
    obtain ⟨m, hm, hrest⟩ := h
    rw [cfs_cons, exceptBind_ok]
    by_cases hk : wkey D fc.1 = p
    · exact ⟨m, by rw [stepWrite_setF_absorb fs D fc p c hk hp]; exact hm, hrest⟩
    · refine ⟨m.setF p c, ?_, ?_⟩
      · rw [stepWrite_setF_comm fs D fc p c hk hp, hm]; rfl
      · have hpm : p ∈ keysF m.files := (pres_stepWrite hm).2.1 hp
        have hex' : ∃ fc' ∈ rest, wkey D fc'.1 = p := by
          obtain ⟨fc', hfc', hw⟩ := hex
          rcases List.mem_cons.mp hfc' with rfl | hfc'
          · exact (hk hw).elim
          · exact ⟨fc', hfc', hw⟩
        exact ih m hpm hex' hrest

/-- A key no entry of the run writes keeps its content. -/
theorem cfs_lookup_frame (F : List (Str × String)) (D : Str) (fs g : FS) (p : Path)
    (hall : ∀ fc ∈ F, wkey D fc.1 ≠ p)
    (h : create_file_structure F D fs = .ok g) :
    lookupF g.files p = lookupF fs.files p := by
  induction F generalizing fs with
  | nil => rw [cfs_nil] at h; cases h; rfl
  | cons fc rest ih =>
    rw [cfs_cons, exceptBind_ok] at h
    obtain ⟨m, hm, hrest⟩ := h
    have hstep : lookupF m.files p = lookupF fs.files p := by
      unfold stepWrite at hm
      rw [exceptBind_ok] at hm
      obtain ⟨m₁, hm₁, hw⟩ := hm
      obtain ⟨-, hm₁⟩ := (makedirs_ok_iff _ _ _).mp hm₁
      obtain ⟨-, hw⟩ := (openWrite_ok_iff _ _ _ _).mp hw
      obtain ⟨-, -, rfl⟩ := (writeFileP_ok_iff _ _ _ _).mp hw
      show lookupF (setFile m₁.files (wkey D fc.1) fc.2) p = lookupF fs.files p
      rw [lookupF_setFile_ne _ _ _ _ (Ne.symm (hall fc (List.mem_cons_self fc rest)))]
      rw [mkdirsP_ok_files hm₁]
    rw [ih m (fun fc' hfc' => hall fc' (List.mem_cons_of_mem fc hfc')) hrest, hstep]

theorem mem_keysF_setFile_iff (l : List (Path × String)) (p q : Path) (c : String) :
    q ∈ keysF (setFile l p c) ↔ q ∈ keysF l ∨ q = p := by
  by_cases hm : p ∈ keysF l
  · rw [keysF_setFile_of_mem l p c hm]
    constructor
    · exact Or.inl
    · rintro (h | rfl)
      · exact h
      · exact hm
  · rw [keysF_setFile_not_mem l p c hm]
    simp

theorem setF_eq_self {fs : FS} {p : Path} {c : String}
    (h : lookupF fs.files p = some c) : fs.setF p c = fs := by
  cases fs with
  | mk fl dl =>
    show FS.mk (setFile fl p c) dl = FS.mk fl dl
    rw [setFile_eq_self fl p c h]

/-- What a successful per-entry step guarantees about the resulting state. -/
theorem stepWrite_ok_elim {D : Str} {fs g : FS} {fc : Str × String}
    (h : stepWrite D fs fc = .ok g) :
    osJoin D fc.1 ≠ [] ∧
    dirname (osJoin D fc.1) ≠ [] ∧
    (∀ q ∈ prefixesOf (resolve (dirname (osJoin D fc.1))), q ∈ g.dirs) ∧
    (∀ q ∈ prefixesOf (resolve (dirname (osJoin D fc.1))), q ∉ keysF g.files) ∧
    wkey D fc.1 ∉ g.dirs ∧
    (wkey D fc.1).dropLast ∈ g.dirs ∧
    g.files = setFile fs.files (wkey D fc.1) fc.2 := by
  unfold stepWrite at h
  rw [exceptBind_ok] at h
  obtain ⟨m, hm, hw⟩ := h
  obtain ⟨hname, hmk⟩ := (makedirs_ok_iff _ _ _).mp hm
  obtain ⟨hj, hwp⟩ := (openWrite_ok_iff _ _ _ _).mp hw
  obtain ⟨hnd, hpar, rfl⟩ := (writeFileP_ok_iff _ _ _ _).mp hwp
  have hmf : m.files = fs.files := mkdirsP_ok_files hmk
  refine ⟨hj, hname, ?_, ?_, hnd, hpar, by rw [show ({ files := setFile m.files (resolve (osJoin D fc.1)) fc.2, dirs := m.dirs } : FS).files = setFile m.files (resolve (osJoin D fc.1)) fc.2 from rfl, hmf]; rfl⟩
  · intro q hq
    exact mkdirsP_ok_target hmk q hq
  · intro q hq hk
    rcases (mem_keysF_setFile_iff m.files (wkey D fc.1) q fc.2).mp hk with hk | rfl
    · exact mkdirsP_ok_no_file hmk q hq (hmf ▸ hk)
    · exact hnd (mkdirsP_ok_target hmk _ hq)

/-- Replaying an entry whose effects already persisted only rewrites its file
with the same mechanism. -/
theorem stepWrite_again {D : Str} {fs g fs' : FS} {fc : Str × String}
    (h : stepWrite D fs fc = .ok g) (hp : Pres g fs') :
    stepWrite D fs' fc = .ok (fs'.setF (wkey D fc.1) fc.2) := by
  obtain ⟨hj, hname, hchain, hchainK, hnd, hpar, hfiles⟩ := stepWrite_ok_elim h
  have hkmem : wkey D fc.1 ∈ keysF g.files := by
    rw [hfiles]; exact mem_keysF_setFile_self _ _ _
  unfold stepWrite
  rw [exceptBind_ok]
  refine ⟨fs', ?_, ?_⟩
  · rw [makedirs_ok_iff]
    refine ⟨hname, mkdirsP_noop ?_ ?_⟩
    · intro q hq; exact hp.1 (hchain q hq)
    · intro q hq; exact hp.2.2.2 q (hchain q hq) (hchainK q hq)
  · rw [openWrite_ok_iff]
    refine ⟨hj, ?_⟩
    rw [writeFileP_ok_iff]
    exact ⟨hp.2.2.1 _ hkmem hnd, hp.1 hpar, rfl⟩

/-- Core idempotence: a successful materialization run, replayed on its own
result, succeeds and changes nothing. -/
theorem cfs_idempotent (F : List (Str × String)) (D : Str) (fs g : FS)
    (h : create_file_structure F D fs = .ok g) :
    create_file_structure F D g = .ok g := by
  induction F generalizing fs with
  | nil => rw [cfs_nil] at h; cases h; exact cfs_nil D _
  | cons fc rest ih =>
    rw [cfs_cons, exceptBind_ok] at h
    obtain ⟨m, hm, hrest⟩ := h
    have hgm : Pres m g := pres_cfs hrest
    have hIH := ih m hrest
    rw [cfs_cons, exceptBind_ok]
    refine ⟨g.setF (wkey D fc.1) fc.2, stepWrite_again hm hgm, ?_⟩
    by_cases hex : ∃ fc' ∈ rest, wkey D fc'.1 = wkey D fc.1
    · have hkg : wkey D fc.1 ∈ keysF g.files := hgm.2.1 (by
        obtain ⟨-, -, -, -, -, -, hfiles⟩ := stepWrite_ok_elim hm
        rw [hfiles]; exact mem_keysF_setFile_self _ _ _)
      exact cfs_setF_absorb rest D g g _ _ hkg hex hIH
    · push_neg at hex
      have hlook : lookupF g.files (wkey D fc.1) = some fc.2 := by
        rw [cfs_lookup_frame rest D m g _ hex hrest]
        obtain ⟨-, -, -, -, -, -, hfiles⟩ := stepWrite_ok_elim hm
        rw [hfiles]; exact lookupF_setFile_self _ _ _
      rw [setF_eq_self hlook]
      exact hIH

/-- A pending write whose directory chain hits an existing regular file makes
the whole run fail. -/
theorem cfs_conflict_error (F : List (Str × String)) (D : Str) (f : Str)
    (c : String) :
    ∀ fs : FS, (f, c) ∈ F →
      (∃ q ∈ prefixesOf (resolve (dirname (osJoin D f))), q ∈ keysF fs.files) →
      (create_file_structure F D fs).toOption = none := by
  induction F with
  | nil => intro fs hmem; simp at hmem
  | cons fc rest ih =>
    intro fs hmem hconf
    rw [cfs_cons]
    cases hstep : stepWrite D fs fc with
    | error e => rfl
    | ok m =>
      rcases List.mem_cons.mp hmem with heq | hmem'
      · exfalso
        rw [← heq] at hstep
        unfold stepWrite at hstep
        rw [exceptBind_ok] at hstep
        obtain ⟨m₁, hm₁, -⟩ := hstep
        obtain ⟨-, hmk⟩ := (makedirs_ok_iff _ _ _).mp hm₁
        obtain ⟨q, hq, hk⟩ := hconf
        exact mkdirsP_ok_no_file hmk q hq hk
      · have hkeys : ∃ q ∈ prefixesOf (resolve (dirname (osJoin D f))),
            q ∈ keysF m.files := by
          obtain ⟨q, hq, hk⟩ := hconf
          exact ⟨q, hq, (pres_stepWrite hstep).2.1 hk⟩
        show ((Except.ok m) >>= fun g => create_file_structure rest D g).toOption = none
        exact ih m hmem' hkeys

/-! ### Character-level path lemmas -/

theorem splitOnSlash_ne_nil (s : Str) : splitOnSlash s ≠ [] := by
  cases s with
  | nil => simp [splitOnSlash]
  | cons c rest =>
    unfold splitOnSlash
    split_ifs with h
    · simp
    · cases hr : splitOnSlash rest <;> simp

theorem splitOnSlash_cons (c : Char) (rest : Str) :
    splitOnSlash (c :: rest) =
      if c = '/' then [] :: splitOnSlash rest
      else
        match splitOnSlash rest with
        | [] => [[c]]
        | hd :: t => (c :: hd) :: t := rfl

theorem splitOnSlash_cons_slash (rest : Str) :
    splitOnSlash ('/' :: rest) = [] :: splitOnSlash rest := by
  rw [splitOnSlash_cons, if_pos rfl]

theorem splitOnSlash_cons_ne (c : Char) (rest : Str) (h : ¬ c = '/') :
    splitOnSlash (c :: rest) =
      match splitOnSlash rest with
      | [] => [[c]]
      | hd :: t => (c :: hd) :: t := by
  rw [splitOnSlash_cons, if_neg h]

theorem splitOnSlash_append (a b : Str) :
    splitOnSlash (a ++ '/' :: b) = splitOnSlash a ++ splitOnSlash b := by
  induction a with
  | nil => simp [splitOnSlash_cons_slash, splitOnSlash]
  | cons c a ih =>
    by_cases h : c = '/'
    · subst h
      rw [List.cons_append, splitOnSlash_cons_slash, splitOnSlash_cons_slash, ih,
        List.cons_append]
    · rw [List.cons_append, splitOnSlash_cons_ne c _ h, splitOnSlash_cons_ne c a h, ih]
      cases hr : splitOnSlash a with
      | nil => exact (splitOnSlash_ne_nil a hr).elim
      | cons hd t => simp

theorem splitOnSlash_no_slash (s : Str) (h : '/' ∉ s) : splitOnSlash s = [s] := by
  induction s with
  | nil => rfl
  | cons c rest ih =>
    have hc : ¬ c = '/' := fun hc => h (hc ▸ List.mem_cons_self c rest)
    rw [splitOnSlash_cons_ne c rest hc, ih (fun hm => h (List.mem_cons_of_mem c hm))]

theorem slash_mem_decomp (f : Str) (h : '/' ∈ f) :
    ∃ g t, f = g ++ '/' :: t ∧ '/' ∉ t := by
  induction f with
  | nil => simp at h
  | cons c rest ih =>
    by_cases hr : '/' ∈ rest
    · obtain ⟨g, t, rfl, ht⟩ := ih hr
      exact ⟨c :: g, t, rfl, ht⟩
    · have hc : c = '/' := by
        rcases List.mem_cons.mp h with h | h
        · exact h.symm
        · exact (hr h).elim
      subst hc
      exact ⟨[], rest, rfl, hr⟩

theorem normalize_cons (acc : Path) (comp : Str) (rest : List Str) :
    normalize acc (comp :: rest) =
      if comp = [] ∨ comp = ['.'] then normalize acc rest
      else if comp = ['.', '.'] then normalize acc.dropLast rest
      else normalize (acc ++ [comp]) rest := rfl

theorem normalize_append (l₁ l₂ : List Str) (acc : Path) :
    normalize acc (l₁ ++ l₂) = normalize (normalize acc l₁) l₂ := by
  induction l₁ generalizing acc with
  | nil => rfl
  | cons comp rest ih =>
    rw [List.cons_append, normalize_cons, normalize_cons]
    split_ifs <;> apply ih

theorem normalize_safe (l : List Str) (acc : Path) (h : ∀ c ∈ l, safeComp c) :
    normalize acc l = acc ++ l := by
  induction l generalizing acc with
  | nil => simp [normalize]
  | cons comp rest ih =>
    obtain ⟨h1, h2, h3⟩ := h comp (List.mem_cons_self comp rest)
    unfold normalize
    rw [if_neg (by simp [h1, h2]), if_neg h3,
      ih (acc ++ [comp]) (fun c hc => h c (List.mem_cons_of_mem comp hc))]
    simp

theorem safeName_ne_nil {f : Str} (h : safeName f) : f ≠ [] := by
  intro hf
  subst hf
  exact (h [] (by simp [splitOnSlash])).1 rfl

theorem safeName_head_ne_slash {f : Str} (h : safeName f) : f.head? ≠ some '/' := by
  intro hh
  cases f with
  | nil => simp at hh
  | cons c rest =>
    simp only [List.head?_cons, Option.some.injEq] at hh
    subst hh
    exact (h [] (by rw [splitOnSlash_cons_slash]; exact List.mem_cons_self [] _)).1 rfl

theorem splitOnSlash_ne_single_nil {s : Str} (h : s ≠ []) : splitOnSlash s ≠ [[]] := by
  cases s with
  | nil => exact (h rfl).elim
  | cons c rest =>
    by_cases hc : c = '/'
    · subst hc
      rw [splitOnSlash_cons_slash]
      intro he
      have := congrArg List.length he
      simp at this
      exact splitOnSlash_ne_nil rest this
    · rw [splitOnSlash_cons_ne c rest hc]
      cases hr : splitOnSlash rest with
      | nil => simp
      | cons hd t =>
        intro he
        have h2 := congrArg (fun l => l.head?) he
        simp at h2

theorem splitOnSlash_getLast_slash {s : Str} (h : s.getLast? = some '/') :
    (splitOnSlash s).getLast? = some [] := by
  induction s with
  | nil => simp at h
  | cons c rest ih =>
    by_cases hrne : rest = []
    · subst hrne
      simp only [List.getLast?_singleton, Option.some.injEq] at h
      subst h
      decide
    · have hlast : rest.getLast? = some '/' := by
        cases rest with
        | nil => exact (hrne rfl).elim
        | cons d r => rw [List.getLast?_cons_cons] at h; exact h
      have ihl := ih hlast
      by_cases hc : c = '/'
      · subst hc
        rw [splitOnSlash_cons_slash]
        cases hsr : splitOnSlash rest with
        | nil => exact (splitOnSlash_ne_nil rest hsr).elim
        | cons x t =>
          rw [hsr] at ihl
          rw [List.getLast?_cons_cons]
          exact ihl
      · rw [splitOnSlash_cons_ne c rest hc]
        cases hsr : splitOnSlash rest with
        | nil => exact (splitOnSlash_ne_nil rest hsr).elim
        | cons x t =>
          rw [hsr] at ihl
          cases t with
          | nil =>
            simp only [List.getLast?_singleton, Option.some.injEq] at ihl
            subst ihl
            exact (splitOnSlash_ne_single_nil hrne hsr).elim
          | cons y t' =>
            rw [List.getLast?_cons_cons] at ihl
            show ((c :: x) :: y :: t').getLast? = some []
            rw [List.getLast?_cons_cons]
            exact ihl

theorem safeName_getLast_ne_slash {f : Str} (h : safeName f) :
    f.getLast? ≠ some '/' := by
  intro hl
  have hmem : ([] : Str) ∈ splitOnSlash f :=
    List.mem_of_mem_getLast? (by simp [splitOnSlash_getLast_slash hl])
  exact (h [] hmem).1 rfl

theorem osJoin_eq (D f : Str) (hf : f.head? ≠ some '/') (hD : D ≠ [])
    (hDl : D.getLast? ≠ some '/') : osJoin D f = D ++ '/' :: f := by
  unfold osJoin
  rw [if_neg hf, if_neg (by simp [hD, hDl])]

theorem dirname_concat (a t : Str) (hs : '/' ∉ t) (hne : a ≠ [])
    (hl : a.getLast? ≠ some '/') : dirname (a ++ '/' :: t) = a := by
  obtain ⟨x, hx⟩ : ∃ x, a.getLast? = some x := by
    cases hxa : a.getLast? with
    | none => exact (hne (List.getLast?_eq_none_iff.mp hxa)).elim
    | some x => exact ⟨x, rfl⟩
  have hxs : ¬ x = '/' := fun hh => hl (hh ▸ hx)
  have hrev : ∃ ar, a.reverse = x :: ar := by
    cases har : a.reverse with
    | nil => exact (hne (by simpa using congrArg List.reverse har)).elim
    | cons y t' =>
      have : a.reverse.head? = some y := by rw [har]; rfl
      rw [List.head?_reverse] at this
      rw [hx] at this
      cases this
      exact ⟨t', rfl⟩
  obtain ⟨ar, har⟩ := hrev
  have hhead : slashHead (a ++ '/' :: t) = a ++ ['/'] := by
    unfold slashHead
    rw [List.reverse_append, List.reverse_cons]
    rw [List.append_assoc]
    rw [List.dropWhile_append]
    have h1 : t.reverse.dropWhile (fun c => ¬ c = '/') = [] := by
      rw [List.dropWhile_eq_nil_iff]
      intro y hy
      simp only [decide_eq_true_eq]
      intro hys
      exact hs (by rw [← hys]; exact List.mem_reverse.mp hy)
    rw [h1]
    simp only [List.isEmpty_nil, if_true]
    rw [show (['/'] ++ a.reverse) = '/' :: a.reverse from rfl, List.dropWhile_cons]
    simp
  rw [dirname, hhead]
  rw [if_pos]
  · unfold rstripSlash
    rw [List.reverse_append]
    have h2 : (['/'].reverse ++ a.reverse) = '/' :: a.reverse := by simp
    rw [h2, List.dropWhile_cons, if_pos (by decide)]
    rw [har, List.dropWhile_cons, if_neg (by simp only [decide_eq_true_eq]; exact hxs)]
    rw [← har, List.reverse_reverse]
  · constructor
    · simp
    · intro hall
      rw [List.all_eq_true] at hall
      have := hall x (List.mem_append_left _ (List.mem_of_mem_getLast? (by simp [hx])))
      simp only [decide_eq_true_eq] at this
      exact hxs this

/-! ### Resolution of joined safe names -/

theorem resolve_osJoin_safe (D f : Str) (hsafe : safeName f) (hD : D ≠ [])
    (hDl : D.getLast? ≠ some '/') :
    resolve (osJoin D f) = resolve D ++ splitOnSlash f := by
  rw [osJoin_eq D f (safeName_head_ne_slash hsafe) hD hDl]
  unfold resolve
  rw [splitOnSlash_append, normalize_append]
  exact normalize_safe _ _ hsafe

theorem resolve_dirname_osJoin_safe (D f : Str) (hsafe : safeName f) (hD : D ≠ [])
    (hDl : D.getLast? ≠ some '/') :
    resolve (dirname (osJoin D f)) = resolve D ++ (splitOnSlash f).dropLast := by
  rw [osJoin_eq D f (safeName_head_ne_slash hsafe) hD hDl]
  by_cases hm : '/' ∈ f
  · obtain ⟨g, t, rfl, ht⟩ := slash_mem_decomp f hm
    have hsplit : splitOnSlash (g ++ '/' :: t) = splitOnSlash g ++ [t] := by
      rw [splitOnSlash_append, splitOnSlash_no_slash t ht]
    have hgsafe : ∀ c ∈ splitOnSlash g, safeComp c := by
      intro c hc
      exact hsafe c (by rw [hsplit]; exact List.mem_append_left _ hc)
    have hgne : g ≠ [] := by
      intro hg
      subst hg
      have := safeName_head_ne_slash hsafe
      simp at this
    have hgl : g.getLast? ≠ some '/' := by
      intro hgl
      have hlast := splitOnSlash_getLast_slash hgl
      have hmem : ([] : Str) ∈ splitOnSlash g :=
        List.mem_of_mem_getLast? (by simp [hlast])
      exact (hgsafe [] hmem).1 rfl
    have hassoc : D ++ '/' :: (g ++ '/' :: t) = (D ++ '/' :: g) ++ '/' :: t := by simp
    have hlast2 : (D ++ '/' :: g).getLast? ≠ some '/' := by
      rw [List.getLast?_append_cons]
      cases g with
      | nil => exact (hgne rfl).elim
      | cons d r => rw [List.getLast?_cons_cons]; exact hgl
    rw [hassoc, dirname_concat (D ++ '/' :: g) t ht (by simp) hlast2]
    have hres : resolve (D ++ '/' :: g) = resolve D ++ splitOnSlash g := by
      unfold resolve
      rw [splitOnSlash_append, normalize_append]
      exact normalize_safe _ _ hgsafe
    rw [hres, hsplit, List.dropLast_concat]
  · rw [dirname_concat D f hm hD hDl]
    rw [splitOnSlash_no_slash f hm]
    simp

/-! ### Materialization into a fresh destination -/

theorem cfs_fresh_files (F : List (Str × String)) (D : Str) :
    ∀ fs g : FS, (∀ fc ∈ F, safeName fc.1) → D ≠ [] → D.getLast? ≠ some '/' →
    (∀ fc ∈ F, (resolve D ++ splitOnSlash fc.1) ∉ keysF fs.files) →
    (F.map (fun fc => splitOnSlash fc.1)).Nodup →
    create_file_structure F D fs = .ok g →
    g.files = fs.files ++ F.map (fun fc => (resolve D ++ splitOnSlash fc.1, fc.2)) := by
  induction F with
  | nil =>
    intro fs g _ _ _ _ _ h
    rw [cfs_nil] at h
    cases h
    simp
  | cons fc rest ih =>
    intro fs g hsafe hD hDl hfresh hnodup h
    rw [List.map_cons, List.nodup_cons] at hnodup
    rw [cfs_cons, exceptBind_ok] at h
    obtain ⟨m, hm, hrest⟩ := h
    obtain ⟨-, -, -, -, -, -, hfiles⟩ := stepWrite_ok_elim hm
    have hkey : wkey D fc.1 = resolve D ++ splitOnSlash fc.1 :=
      resolve_osJoin_safe D fc.1 (hsafe fc (List.mem_cons_self fc rest)) hD hDl
    have hmf : m.files = fs.files ++ [(resolve D ++ splitOnSlash fc.1, fc.2)] := by
      rw [hfiles, hkey, setFile_not_mem _ _ _ (hfresh fc (List.mem_cons_self fc rest))]
    have hfresh' : ∀ fc' ∈ rest, (resolve D ++ splitOnSlash fc'.1) ∉ keysF m.files := by
      intro fc' hfc' hmem
      rw [hmf, keysF_append] at hmem
      rcases List.mem_append.mp hmem with hmem | hmem
      · exact hfresh fc' (List.mem_cons_of_mem fc hfc') hmem
      · simp only [keysF, List.map_cons, List.map_nil, List.mem_singleton] at hmem
        have heq : splitOnSlash fc'.1 = splitOnSlash fc.1 :=
          List.append_cancel_left hmem
        exact hnodup.1 (by rw [← heq]; exact List.mem_map.mpr ⟨fc', hfc', rfl⟩)
    have hres := ih m g (fun fc' h' => hsafe fc' (List.mem_cons_of_mem fc h')) hD hDl
      hfresh' hnodup.2 hrest
    rw [hres, hmf, List.map_cons, List.append_assoc]
    rfl

theorem filterMapUnder (root : Path) (E : List (Path × String))
    (hne : ∀ ec ∈ E, ec.1 ≠ []) :
    (E.map (fun ec => (root ++ ec.1, ec.2))).filterMap
      (fun fc => if root <+: fc.1 ∧ root.length < fc.1.length then
          some (fc.1.drop root.length, fc.2) else none) = E := by
  induction E with
  | nil => rfl
  | cons ec rest ih =>
    rw [List.map_cons, List.filterMap_cons]
    have h1 : root <+: (root ++ ec.1) := List.prefix_append root ec.1
    have h2 : root.length < (root ++ ec.1).length := by
      rw [List.length_append]
      have h3 : 0 < ec.1.length :=
        List.length_pos.mpr (hne ec (List.mem_cons_self ec rest))
      omega
    rw [if_pos ⟨h1, h2⟩, List.drop_left,
      ih (fun ec' h' => hne ec' (List.mem_cons_of_mem ec h'))]

theorem filesUnderSpec_of_map (fs : FS) (root : Path) (E : List (Path × String))
    (hf : fs.files = E.map (fun ec => (root ++ ec.1, ec.2)))
    (hne : ∀ ec ∈ E, ec.1 ≠ []) :
    filesUnderSpec fs root = E := by
  unfold filesUnderSpec
  rw [hf]
  exact filterMapUnder root E hne

/-! ### Walk correctness -/

theorem walkAux_zero (fs : FS) (p : Path) : walkAux fs 0 p = [] := rfl

theorem walkAux_succ (fs : FS) (n : Nat) (p : Path) :
    walkAux fs (n + 1) p =
      (p, childFiles fs p) :: (childDirs fs p).flatMap (walkAux fs n) := rfl

theorem mem_childDirs {fs : FS} {p d : Path} :
    d ∈ childDirs fs p ↔ d ∈ fs.dirs ∧ d.length = p.length + 1 ∧ p <+: d := by
  simp [childDirs, List.mem_filter, and_assoc]

theorem mem_childFiles {fs : FS} {p : Path} {fc : Path × String} :
    fc ∈ childFiles fs p ↔ fc ∈ fs.files ∧ fc.1.length = p.length + 1 ∧ p <+: fc.1 := by
  simp [childFiles, List.mem_filter, and_assoc]

theorem walkAux_mem {fs : FS} {n : Nat} {p : Path} {x : Path × List (Path × String)}
    (hx : x ∈ walkAux fs n p) :
    p <+: x.1 ∧ x.2 = childFiles fs x.1 ∧
      (x.1 = p ∨ (x.1 ∈ fs.dirs ∧ p.length < x.1.length)) := by
  induction n generalizing p with
  | zero => simp [walkAux_zero] at hx
  | succ n ih =>
    rw [walkAux_succ] at hx
    rcases List.mem_cons.mp hx with rfl | hx
    · exact ⟨List.prefix_refl p, rfl, Or.inl rfl⟩
    · obtain ⟨c, hc, hx⟩ := List.mem_flatMap.mp hx
      obtain ⟨hcd, hclen, hcp⟩ := mem_childDirs.mp hc
      obtain ⟨hpre, hfiles, hor⟩ := ih hx
      refine ⟨hcp.trans hpre, hfiles, Or.inr ?_⟩
      rcases hor with heq | ⟨hd, hlt⟩
      · rw [heq]
        exact ⟨hcd, by omega⟩
      · have := hpre.length_le
        exact ⟨hd, by omega⟩

theorem foldr_max_le {l : List Path} {d : Path} (hd : d ∈ l) :
    d.length ≤ l.foldr (fun d m => max d.length m) 0 := by
  induction l with
  | nil => simp at hd
  | cons a rest ih =>
    rcases List.mem_cons.mp hd with rfl | hd
    · simp [List.foldr_cons, Nat.le_max_left]
    · simp only [List.foldr_cons]
      exact le_trans (ih hd) (Nat.le_max_right _ _)

theorem length_le_maxDirLen {fs : FS} {d : Path} (hd : d ∈ fs.dirs) :
    d.length ≤ maxDirLen fs := foldr_max_le hd

theorem take_mem_dirs {fs : FS} (hclosed : ∀ d ∈ fs.dirs, d.dropLast ∈ fs.dirs)
    {d : Path} (hd : d ∈ fs.dirs) (m : Nat) : d.take m ∈ fs.dirs := by
  have key : ∀ j, d.take (d.length - j) ∈ fs.dirs := by
    intro j
    induction j with
    | zero => simpa [List.take_length] using hd
    | succ j ih =>
      by_cases hj : d.length ≤ j
      · have h0 : d.length - j = 0 := by omega
        have h1 : d.length - (j + 1) = 0 := by omega
        rw [h0] at ih
        rw [h1]
        exact ih
      · have heq : d.take (d.length - (j + 1)) = (d.take (d.length - j)).dropLast := by
          by_cases hj0 : j = 0
          · subst hj0
            rw [Nat.sub_zero, List.take_length, List.dropLast_eq_take]
          · rw [List.dropLast_take (by omega : d.length - j < d.length)]
            congr 1
        rw [heq]
        exact hclosed _ ih
  by_cases hm : d.length ≤ m
  · rw [List.take_of_length_le hm]
    exact hd
  · have heq : m = d.length - (d.length - m) := by omega
    rw [heq]
    exact key (d.length - m)

theorem prefix_take_len {p d : Path} (h : p <+: d) {m : Nat} (hm : p.length ≤ m) :
    p <+: d.take m :=
  List.prefix_take_iff.mpr ⟨h, hm⟩

theorem walkAux_reach {fs : FS} (hclosed : ∀ d ∈ fs.dirs, d.dropLast ∈ fs.dirs) :
    ∀ (k n : Nat) (p d : Path), d ∈ fs.dirs → p <+: d → d.length - p.length = k →
      k < n → (d, childFiles fs d) ∈ walkAux fs n p := by
  intro k
  induction k with
  | zero =>
    intro n p d hd hpre hlen hn
    have hpd : p = d := hpre.eq_of_length (by have := hpre.length_le; omega)
    subst hpd
    cases n with
    | zero => omega
    | succ n =>
      rw [walkAux_succ]
      exact List.mem_cons_self _ _
  | succ k ih =>
    intro n p d hd hpre hlen hn
    cases n with
    | zero => omega
    | succ n =>
      rw [walkAux_succ]
      apply List.mem_cons_of_mem
      apply List.mem_flatMap.mpr
      have hple : p.length + 1 ≤ d.length := by omega
      refine ⟨d.take (p.length + 1),
        mem_childDirs.mpr ⟨take_mem_dirs hclosed hd _, ?_, ?_⟩, ?_⟩
      · rw [List.length_take]
        omega
      · exact prefix_take_len hpre (by omega)
      · refine ih n (d.take (p.length + 1)) d hd (List.take_prefix _ d) ?_ (by omega)
        rw [List.length_take]
        omega

theorem walkAux_firsts_nodup {fs : FS} (hnd : fs.dirs.Nodup) :
    ∀ (n : Nat) (p : Path), ((walkAux fs n p).map Prod.fst).Nodup := by
  intro n
  induction n with
  | zero => intro p; simp [walkAux_zero]
  | succ n ih =>
    intro p
    rw [walkAux_succ, List.map_cons, List.nodup_cons, List.map_flatMap,
      show ((p, childFiles fs p) : Path × List (Path × String)).1 = p from rfl]
    constructor
    · intro hp
      obtain ⟨c, hc, hp⟩ := List.mem_flatMap.mp hp
      obtain ⟨-, hclen, -⟩ := mem_childDirs.mp hc
      obtain ⟨x, hx, hx1⟩ := List.mem_map.mp hp
      obtain ⟨hpre, -, -⟩ := walkAux_mem hx
      have := hpre.length_le
      rw [hx1] at this
      omega
    · rw [List.nodup_flatMap]
      refine ⟨fun c _ => ih c, ?_⟩
      have hcd : (childDirs fs p).Nodup := List.Nodup.filter _ hnd
      refine List.Pairwise.imp_of_mem ?_ hcd
      intro c₁ c₂ hc₁ hc₂ hne q hq₁ hq₂
      obtain ⟨-, hl₁, -⟩ := mem_childDirs.mp hc₁
      obtain ⟨-, hl₂, -⟩ := mem_childDirs.mp hc₂
      obtain ⟨x₁, hx₁, he₁⟩ := List.mem_map.mp hq₁
      obtain ⟨x₂, hx₂, he₂⟩ := List.mem_map.mp hq₂
      obtain ⟨hp₁, -, -⟩ := walkAux_mem hx₁
      obtain ⟨hp₂, -, -⟩ := walkAux_mem hx₂
      apply hne
      have e₁ : c₁ = q.take (p.length + 1) := by
        rw [← he₁]
        rw [List.prefix_iff_eq_take.mp hp₁, hl₁]
      have e₂ : c₂ = q.take (p.length + 1) := by
        rw [← he₂]
        rw [List.prefix_iff_eq_take.mp hp₂, hl₂]
      rw [e₁, e₂]

theorem eq_of_drop_eq {root q₁ q₂ : Path} (h1 : root <+: q₁) (h2 : root <+: q₂)
    (hl : q₁.drop root.length = q₂.drop root.length) : q₁ = q₂ := by
  have e1 : q₁ = root ++ q₁.drop root.length := by
    conv_lhs => rw [← List.take_append_drop root.length q₁]
    rw [← List.prefix_iff_eq_take.mp h1]
  have e2 : q₂ = root ++ q₂.drop root.length := by
    conv_lhs => rw [← List.take_append_drop root.length q₂]
    rw [← List.prefix_iff_eq_take.mp h2]
  rw [e1, e2, hl]

theorem child_eq_dropLast {d q : Path} (hpre : d <+: q) (hlen : q.length = d.length + 1) :
    d = q.dropLast := by
  rw [List.dropLast_eq_take, hlen]
  have heq := List.prefix_iff_eq_take.mp hpre
  simpa using heq

theorem mem_filesUnderSpec {fs : FS} {root : Path} {e : Path × String} :
    e ∈ filesUnderSpec fs root ↔
      ∃ q c, (q, c) ∈ fs.files ∧ root <+: q ∧ root.length < q.length ∧
        e = (q.drop root.length, c) := by
  unfold filesUnderSpec
  rw [List.mem_filterMap]
  constructor
  · rintro ⟨fc, hfc, hsome⟩
    by_cases hc : root <+: fc.1 ∧ root.length < fc.1.length
    · rw [if_pos hc] at hsome
      cases hsome
      exact ⟨fc.1, fc.2, by simpa using hfc, hc.1, hc.2, rfl⟩
    · rw [if_neg hc] at hsome
      cases hsome
  · rintro ⟨q, c, hfc, h1, h2, rfl⟩
    exact ⟨(q, c), hfc, by rw [if_pos ⟨h1, h2⟩]⟩

theorem create_zip_file_mem_sound {fs : FS} {P : Str} {e : Path × String}
    (he : e ∈ create_zip_file fs P) :
    ∃ q c, (q, c) ∈ fs.files ∧ resolve P <+: q ∧ (resolve P).length < q.length ∧
      e = (q.drop (resolve P).length, c) := by
  unfold create_zip_file walk at he
  by_cases hroot : resolve P ∈ fs.dirs
  · rw [if_pos hroot] at he
    obtain ⟨df, hdf, he⟩ := List.mem_flatMap.mp he
    obtain ⟨hpre, hfiles, hor⟩ := walkAux_mem hdf
    obtain ⟨fc, hfc, he⟩ := List.mem_map.mp he
    rw [hfiles] at hfc
    obtain ⟨hmem, hlen, hdpre⟩ := mem_childFiles.mp hfc
    have hrl := hpre.length_le
    refine ⟨fc.1, fc.2, by simpa using hmem, hpre.trans hdpre, by omega, ?_⟩
    rw [← he]
  · rw [if_neg hroot] at he
    simp at he

theorem create_zip_file_mem_complete {fs : FS} {P : Str} {q : Path} {c : String}
    (hclosed : ∀ d ∈ fs.dirs, d.dropLast ∈ fs.dirs)
    (hparent : ∀ p ∈ keysF fs.files, p.dropLast ∈ fs.dirs)
    (hroot : resolve P ∈ fs.dirs)
    (hmem : (q, c) ∈ fs.files) (hpre : resolve P <+: q)
    (hlen : (resolve P).length < q.length) :
    (q.drop (resolve P).length, c) ∈ create_zip_file fs P := by
  unfold create_zip_file walk
  rw [if_pos hroot]
  have hd : q.dropLast ∈ fs.dirs := by
    apply hparent q
    exact List.mem_map.mpr ⟨(q, c), hmem, rfl⟩
  have hdpre : resolve P <+: q.dropLast := by
    rw [List.dropLast_eq_take]
    exact prefix_take_len hpre (by omega)
  have hdl : q.dropLast.length = q.length - 1 := List.length_dropLast q
  apply List.mem_flatMap.mpr
  refine ⟨(q.dropLast, childFiles fs q.dropLast), ?_, ?_⟩
  · apply walkAux_reach hclosed (q.dropLast.length - (resolve P).length)
      (maxDirLen fs + 1) (resolve P) q.dropLast hd hdpre rfl
    have h2 := length_le_maxDirLen hd
    omega
  · apply List.mem_map.mpr
    refine ⟨(q, c), mem_childFiles.mpr ⟨hmem, ?_, List.dropLast_prefix q⟩, rfl⟩
    show q.length = q.dropLast.length + 1
    omega

theorem eq_of_keysF_nodup {l : List (Path × String)} (h : (keysF l).Nodup)
    {a b : Path × String} (ha : a ∈ l) (hb : b ∈ l) (hk : a.1 = b.1) : a = b := by
  induction l with
  | nil => simp at ha
  | cons x rest ih =>
    rw [keysF_cons, List.nodup_cons] at h
    rcases List.mem_cons.mp ha with ha1 | ha2
    · rcases List.mem_cons.mp hb with hb1 | hb2
      · rw [ha1, hb1]
      · exfalso
        apply h.1
        have hbm : b.1 ∈ keysF rest := List.mem_map.mpr ⟨b, hb2, rfl⟩
        rw [← hk, ha1] at hbm
        exact hbm
    · rcases List.mem_cons.mp hb with hb1 | hb2
      · exfalso
        apply h.1
        have ham : a.1 ∈ keysF rest := List.mem_map.mpr ⟨a, ha2, rfl⟩
        rw [hk, hb1] at ham
        exact ham
      · exact ih h.2 ha2 hb2

theorem create_zip_file_keys_nodup (fs : FS) (P : Str)
    (hndf : (keysF fs.files).Nodup) (hndd : fs.dirs.Nodup) :
    (keysF (create_zip_file fs P)).Nodup := by
  unfold create_zip_file walk
  by_cases hroot : resolve P ∈ fs.dirs
  swap
  · rw [if_neg hroot]
    simp [keysF]
  rw [if_pos hroot]
  unfold keysF
  rw [List.map_flatMap]
  have hinner : ∀ df : Path × List (Path × String),
      (List.map Prod.fst (df.2.map (fun fc => (fc.1.drop (resolve P).length, fc.2)))) =
        df.2.map (fun fc => fc.1.drop (resolve P).length) := by
    intro df
    rw [List.map_map]
    rfl
  rw [List.nodup_flatMap]
  constructor
  · intro df hdf
    rw [hinner]
    obtain ⟨hpre, hfiles, -⟩ := walkAux_mem hdf
    have hfnd : df.2.Nodup := by
      rw [hfiles]
      exact List.Nodup.filter _ (List.Nodup.of_map Prod.fst hndf)
    have hnd2 : (keysF df.2).Nodup := by
      rw [hfiles]
      exact ((List.filter_sublist _).map Prod.fst).nodup hndf
    apply List.Nodup.map_on ?_ hfnd
    intro fc₁ h₁ fc₂ h₂ hdrop
    have h₁' := h₁
    have h₂' := h₂
    rw [hfiles] at h₁' h₂'
    obtain ⟨hm₁, hl₁, hp₁⟩ := mem_childFiles.mp h₁'
    obtain ⟨hm₂, hl₂, hp₂⟩ := mem_childFiles.mp h₂'
    have hq : fc₁.1 = fc₂.1 :=
      eq_of_drop_eq (hpre.trans hp₁) (hpre.trans hp₂) hdrop
    exact eq_of_keysF_nodup hnd2 h₁ h₂ hq
  · have h0 : List.Pairwise Ne
        ((walkAux fs (maxDirLen fs + 1) (resolve P)).map Prod.fst) :=
      walkAux_firsts_nodup hndd _ _
    have h1 := List.pairwise_map.mp h0
    refine List.Pairwise.imp_of_mem ?_ h1
    intro a b ha hb hne
    show List.Disjoint
      (List.map Prod.fst (a.2.map (fun fc => (fc.1.drop (resolve P).length, fc.2))))
      (List.map Prod.fst (b.2.map (fun fc => (fc.1.drop (resolve P).length, fc.2))))
    rw [hinner a, hinner b]
    intro x hxa hxb
    obtain ⟨hpa, hfa, -⟩ := walkAux_mem ha
    obtain ⟨hpb, hfb, -⟩ := walkAux_mem hb
    obtain ⟨fc₁, h₁, he₁⟩ := List.mem_map.mp hxa
    obtain ⟨fc₂, h₂, he₂⟩ := List.mem_map.mp hxb
    rw [hfa] at h₁
    rw [hfb] at h₂
    obtain ⟨-, hl₁, hp₁⟩ := mem_childFiles.mp h₁
    obtain ⟨-, hl₂, hp₂⟩ := mem_childFiles.mp h₂
    have hq : fc₁.1 = fc₂.1 := by
      apply eq_of_drop_eq (hpa.trans hp₁) (hpb.trans hp₂)
      rw [he₁, he₂]
    apply hne
    have e₁ : a.1 = fc₁.1.dropLast := child_eq_dropLast hp₁ hl₁
    have e₂ : b.1 = fc₂.1.dropLast := child_eq_dropLast hp₂ hl₂
    rw [e₁, e₂, hq]

/-! ### Extraction into a fresh destination (round-trip) -/

theorem prefixesOf_closed {p d : Path} (hd : d ∈ prefixesOf p) :
    d.dropLast ∈ prefixesOf p := by
  simp only [prefixesOf, List.mem_map, List.mem_range] at hd ⊢
  obtain ⟨k, hk, rfl⟩ := hd
  rcases Nat.eq_zero_or_pos k with rfl | hk0
  · exact ⟨0, by omega, by simp⟩
  · refine ⟨k - 1, by omega, ?_⟩
    by_cases hkl : k < p.length
    · rw [List.dropLast_take hkl]
    · have hkeq : k = p.length := by omega
      subst hkeq
      rw [List.take_length, List.dropLast_eq_take]

theorem files_key_prefix_free {fs : FS}
    (hclosed : ∀ d ∈ fs.dirs, d.dropLast ∈ fs.dirs)
    (hparent : ∀ p ∈ keysF fs.files, p.dropLast ∈ fs.dirs)
    (hnotdir : ∀ p ∈ keysF fs.files, p ∉ fs.dirs)
    {p q : Path} (hp : p ∈ keysF fs.files) (hq : q ∈ keysF fs.files)
    (hpre : p <+: q) : p = q := by
  by_contra hne
  have hle := hpre.length_le
  have hlt : p.length < q.length := by
    rcases Nat.lt_or_ge p.length q.length with h | h
    · exact h
    · exact absurd (hpre.eq_of_length (by omega)) hne
  have h1 : p <+: q.dropLast := by
    rw [List.dropLast_eq_take]
    exact prefix_take_len hpre (by omega)
  have h2 := hparent q hq
  have h3 : p ∈ fs.dirs := by
    have h4 := take_mem_dirs hclosed h2 p.length
    rwa [← List.prefix_iff_eq_take.mp h1] at h4
  exact hnotdir p hp h3

theorem keysF_map_pair (dest : Path) (l : List (Path × String)) :
    keysF (l.map (fun ec => (dest ++ ec.1, ec.2))) = l.map (fun ec => dest ++ ec.1) := by
  unfold keysF
  rw [List.map_map]
  rfl

theorem extract_go (dest : Path) :
    ∀ (E done : List (Path × String)) (fs : FS),
    (keysF (done ++ E)).Nodup →
    (∀ e₁ ∈ keysF (done ++ E), ∀ e₂ ∈ keysF (done ++ E), e₁ <+: e₂ → e₁ = e₂) →
    (∀ e ∈ keysF (done ++ E), e ≠ []) →
    fs.files = done.map (fun ec => (dest ++ ec.1, ec.2)) →
    fs.dirs.Nodup →
    (∀ d ∈ fs.dirs, d.dropLast ∈ fs.dirs) →
    (∀ q ∈ prefixesOf dest, q ∈ fs.dirs) →
    (∀ d ∈ fs.dirs, d <+: dest ∨ ∃ ec ∈ done, d <+: dest ++ ec.1.dropLast) →
    (∀ ec ∈ done, (dest ++ ec.1).dropLast ∈ fs.dirs) →
    ∃ g : FS, extractArchive E dest fs = .ok g ∧
      g.files = (done ++ E).map (fun ec => (dest ++ ec.1, ec.2)) ∧
      g.dirs.Nodup ∧ (∀ d ∈ g.dirs, d.dropLast ∈ g.dirs) ∧
      (∀ q ∈ prefixesOf dest, q ∈ g.dirs) ∧
      (∀ ec ∈ done ++ E, (dest ++ ec.1).dropLast ∈ g.dirs) := by
  intro E
  induction E with
  | nil =>
    intro done fs hnd hpf hne hfiles hdnd hdcl hpre hchar hpar
    refine ⟨fs, extract_nil dest fs, ?_, hdnd, hdcl, hpre, ?_⟩
    · rw [List.append_nil]
      exact hfiles
    · rw [List.append_nil]
      exact hpar
  | cons ec rest ih =>
    intro done fs hnd hpf hne hfiles hdnd hdcl hpre hchar hpar
    have hLeq : (done ++ [ec]) ++ rest = done ++ ec :: rest := by simp
    have hecL : ec.1 ∈ keysF (done ++ ec :: rest) := by
      rw [keysF_append]
      exact List.mem_append_right _ (List.mem_map.mpr ⟨ec, List.mem_cons_self ec rest, rfl⟩)
    have hecne : ec.1 ≠ [] := hne ec.1 hecL
    have hkey_done : ∀ ecd ∈ done, ecd.1 ≠ ec.1 := by
      intro ecd hd heq
      rw [keysF_append, keysF_cons] at hnd
      have h1 := (List.nodup_append.mp hnd).2.2
      exact h1 (List.mem_map.mpr ⟨ecd, hd, rfl⟩)
        (by rw [heq]; exact List.mem_cons_self _ _)
    have hmk : mkdirsP fs (dest ++ ec.1).dropLast = .ok
        { fs with
          dirs := fs.dirs ++
            (prefixesOf (dest ++ ec.1).dropLast).filter (fun q => decide (q ∉ fs.dirs)) } := by
      rw [mkdirsP_ok_iff]
      refine ⟨?_, rfl⟩
      intro q hq hqk
      rw [hfiles, keysF_map_pair] at hqk
      obtain ⟨ecd, hecd, hecd1⟩ := List.mem_map.mp hqk
      have hq1 : q <+: dest ++ ec.1 :=
        ((mem_prefixesOf q _).mp hq).trans (List.dropLast_prefix _)
      rw [← hecd1] at hq1
      have hq2 : ecd.1 <+: ec.1 := (List.prefix_append_right_inj dest).mp hq1
      have hdL : ecd.1 ∈ keysF (done ++ ec :: rest) := by
        rw [keysF_append]
        exact List.mem_append_left _ (List.mem_map.mpr ⟨ecd, hecd, rfl⟩)
      exact hkey_done ecd hecd (hpf ecd.1 hdL ec.1 hecL hq2)
    set m : FS := { fs with
      dirs := fs.dirs ++
        (prefixesOf (dest ++ ec.1).dropLast).filter (fun q => decide (q ∉ fs.dirs)) } with hm
    have hmfiles : m.files = fs.files := rfl
    have hmchar : ∀ d ∈ m.dirs, d ∈ fs.dirs ∨ d <+: (dest ++ ec.1).dropLast :=
      mkdirsP_ok_dirs_cases hmk
    have hmtarget : ∀ q ∈ prefixesOf (dest ++ ec.1).dropLast, q ∈ m.dirs :=
      mkdirsP_ok_target hmk
    have hmsup : fs.dirs ⊆ m.dirs := mkdirsP_ok_dirs_sup hmk
    have hdl_app : (dest ++ ec.1).dropLast = dest ++ ec.1.dropLast :=
      List.dropLast_append_of_ne_nil dest hecne
    have hw : writeFileP m (dest ++ ec.1) ec.2 = .ok
        { m with files := setFile m.files (dest ++ ec.1) ec.2 } := by
      rw [writeFileP_ok_iff]
      refine ⟨?_, ?_, rfl⟩
      · intro hmem
        rcases hmchar _ hmem with hmem | hmem
        · rcases hchar _ hmem with hp | ⟨ecd, hecd, hp⟩
          · have := hp.length_le
            rw [List.length_append] at this
            have : ec.1.length = 0 := by omega
            exact hecne (List.length_eq_zero.mp this)
          · have h2 : ec.1 <+: ecd.1.dropLast := (List.prefix_append_right_inj dest).mp hp
            have h3 : ec.1 <+: ecd.1 := h2.trans (List.dropLast_prefix _)
            have hdL : ecd.1 ∈ keysF (done ++ ec :: rest) := by
              rw [keysF_append]
              exact List.mem_append_left _ (List.mem_map.mpr ⟨ecd, hecd, rfl⟩)
            have heq := hpf ec.1 hecL ecd.1 hdL h3
            rw [← heq] at h2
            have h4 := h2.length_le
            rw [List.length_dropLast] at h4
            have h5 : 0 < ec.1.length := List.length_pos.mpr hecne
            omega
        · have h4 := hmem.length_le
          rw [List.length_dropLast] at h4
          have h5 : 0 < ec.1.length := List.length_pos.mpr hecne
          have h6 : (dest ++ ec.1).length = dest.length + ec.1.length :=
            List.length_append dest ec.1
          omega
      · exact hmtarget _ (self_mem_prefixesOf _)
    have hfresh : (dest ++ ec.1) ∉ keysF m.files := by
      rw [hmfiles, hfiles, keysF_map_pair]
      intro hmem
      obtain ⟨ecd, hecd, hecd1⟩ := List.mem_map.mp hmem
      exact hkey_done ecd hecd (List.append_cancel_left hecd1)
    set g₁ : FS := { m with files := setFile m.files (dest ++ ec.1) ec.2 } with hg₁
    have hg₁files : g₁.files = (done ++ [ec]).map (fun ec => (dest ++ ec.1, ec.2)) := by
      show setFile m.files (dest ++ ec.1) ec.2 = _
      rw [setFile_not_mem _ _ _ hfresh, hmfiles, hfiles, List.map_append]
      rfl
    have hstep : stepExtract dest fs ec = .ok g₁ := by
      unfold stepExtract
      rw [exceptBind_ok]
      exact ⟨m, hmk, hw⟩
    have hg₁dirs : g₁.dirs = m.dirs := rfl
    have hg₁nd : g₁.dirs.Nodup := by
      rw [hg₁dirs]
      exact mkdirsP_ok_nodup hmk hdnd
    have hg₁cl : ∀ d ∈ g₁.dirs, d.dropLast ∈ g₁.dirs := by
      rw [hg₁dirs]
      intro d hd
      rcases hmchar d hd with hd2 | hd2
      · exact hmsup (hdcl d hd2)
      · exact hmtarget _ ((mem_prefixesOf _ _).mpr ((List.dropLast_prefix d).trans hd2))
    have hg₁pre : ∀ q ∈ prefixesOf dest, q ∈ g₁.dirs := by
      rw [hg₁dirs]
      intro q hq
      exact hmsup (hpre q hq)
    have hg₁char : ∀ d ∈ g₁.dirs, d <+: dest ∨
        ∃ ecd ∈ done ++ [ec], d <+: dest ++ ecd.1.dropLast := by
      rw [hg₁dirs]
      intro d hd
      rcases hmchar d hd with hd2 | hd2
      · rcases hchar d hd2 with hp | ⟨ecd, hecd, hp⟩
        · exact Or.inl hp
        · exact Or.inr ⟨ecd, List.mem_append_left _ hecd, hp⟩
      · rw [hdl_app] at hd2
        exact Or.inr ⟨ec, List.mem_append_right _ (List.mem_singleton_self ec), hd2⟩
    have hg₁par : ∀ ecd ∈ done ++ [ec], (dest ++ ecd.1).dropLast ∈ g₁.dirs := by
      rw [hg₁dirs]
      intro ecd hecd
      rcases List.mem_append.mp hecd with hecd | hecd
      · exact hmsup (hpar ecd hecd)
      · rw [List.mem_singleton.mp hecd]
        exact hmtarget _ (self_mem_prefixesOf _)
    obtain ⟨g, hg, hgf, hgnd, hgcl, hgpre, hgpar⟩ :=
      ih (done ++ [ec]) g₁ (by rw [hLeq]; exact hnd) (by rw [hLeq]; exact hpf)
        (by rw [hLeq]; exact hne) hg₁files hg₁nd hg₁cl hg₁pre hg₁char hg₁par
    refine ⟨g, ?_, by rw [hLeq] at hgf; exact hgf, hgnd, hgcl, hgpre,
      by rw [hLeq] at hgpar; exact hgpar⟩
    rw [extract_cons, exceptBind_ok]
    exact ⟨g₁, hstep, hg⟩

theorem create_zip_file_toFinset_eq (fs : FS) (P : Str)
    (hclosed : ∀ d ∈ fs.dirs, d.dropLast ∈ fs.dirs)
    (hparent : ∀ p ∈ keysF fs.files, p.dropLast ∈ fs.dirs)
    (hroot : resolve P ∈ fs.dirs) :
    (create_zip_file fs P).toFinset = (filesUnderSpec fs (resolve P)).toFinset := by
  ext e
  simp only [List.mem_toFinset]
  constructor
  · intro he
    obtain ⟨q, c, h1, h2, h3, rfl⟩ := create_zip_file_mem_sound he
    exact mem_filesUnderSpec.mpr ⟨q, c, h1, h2, h3, rfl⟩
  · intro he
    obtain ⟨q, c, h1, h2, h3, rfl⟩ := mem_filesUnderSpec.mp he
    exact create_zip_file_mem_complete hclosed hparent hroot h1 h2 h3

theorem prefix_reconstruct {root q : Path} (h : root <+: q) :
    q = root ++ q.drop root.length := by
  conv_lhs => rw [← List.take_append_drop root.length q]
  rw [← List.prefix_iff_eq_take.mp h]

theorem create_zip_keys_ne_nil {fs : FS} {P : Str} {e : Path}
    (he : e ∈ keysF (create_zip_file fs P)) : e ≠ [] := by
  obtain ⟨x, hx, rfl⟩ := List.mem_map.mp he
  obtain ⟨q, c, -, -, hlen, rfl⟩ := create_zip_file_mem_sound hx
  show q.drop (resolve P).length ≠ []
  intro hnil
  have h2 := congrArg List.length hnil
  rw [List.length_drop] at h2
  simp at h2
  omega

theorem create_zip_keys_prefix_free {fs : FS} {P : Str}
    (hclosed : ∀ d ∈ fs.dirs, d.dropLast ∈ fs.dirs)
    (hparent : ∀ p ∈ keysF fs.files, p.dropLast ∈ fs.dirs)
    (hnotdir : ∀ p ∈ keysF fs.files, p ∉ fs.dirs) :
    ∀ e₁ ∈ keysF (create_zip_file fs P), ∀ e₂ ∈ keysF (create_zip_file fs P),
      e₁ <+: e₂ → e₁ = e₂ := by
  intro e₁ h₁ e₂ h₂ hpre
  obtain ⟨x₁, hx₁, rfl⟩ := List.mem_map.mp h₁
  obtain ⟨x₂, hx₂, rfl⟩ := List.mem_map.mp h₂
  obtain ⟨q₁, c₁, hm₁, hp₁, hl₁, rfl⟩ := create_zip_file_mem_sound hx₁
  obtain ⟨q₂, c₂, hm₂, hp₂, hl₂, rfl⟩ := create_zip_file_mem_sound hx₂
  show q₁.drop (resolve P).length = q₂.drop (resolve P).length
  have hpre' : q₁.drop (resolve P).length <+: q₂.drop (resolve P).length := hpre
  have hq : q₁ <+: q₂ := by
    rw [prefix_reconstruct hp₁, prefix_reconstruct hp₂]
    exact (List.prefix_append_right_inj (resolve P)).mpr hpre'
  have hk₁ : q₁ ∈ keysF fs.files := List.mem_map.mpr ⟨(q₁, c₁), hm₁, rfl⟩
  have hk₂ : q₂ ∈ keysF fs.files := List.mem_map.mpr ⟨(q₂, c₂), hm₂, rfl⟩
  rw [files_key_prefix_free hclosed hparent hnotdir hk₁ hk₂ hq]

theorem extract_fresh (dest : Path) (E : List (Path × String))
    (hnd : (keysF E).Nodup)
    (hpf : ∀ e₁ ∈ keysF E, ∀ e₂ ∈ keysF E, e₁ <+: e₂ → e₁ = e₂)
    (hne : ∀ e ∈ keysF E, e ≠ []) :
    ∃ g : FS, extractArchive E dest (freshTree dest) = .ok g ∧
      g.files = E.map (fun ec => (dest ++ ec.1, ec.2)) ∧
      g.dirs.Nodup ∧ (∀ d ∈ g.dirs, d.dropLast ∈ g.dirs) ∧ dest ∈ g.dirs ∧
      (∀ p ∈ keysF g.files, p.dropLast ∈ g.dirs) := by
  obtain ⟨g, h1, h2, h3, h4, h5, h6⟩ := extract_go dest E [] (freshTree dest)
    (by simpa using hnd) (by simpa using hpf) (by simpa using hne)
    rfl (prefixesOf_nodup dest) (fun d hd => prefixesOf_closed hd)
    (fun q hq => hq) (fun d hd => Or.inl ((mem_prefixesOf d dest).mp hd))
    (by simp)
  rw [List.nil_append] at h2 h6
  refine ⟨g, h1, h2, h3, h4, h5 dest (self_mem_prefixesOf dest), ?_⟩
  intro p hp
  rw [h2, keysF_map_pair] at hp
  obtain ⟨ecd, hecd, rfl⟩ := List.mem_map.mp hp
  exact h6 ecd hecd

theorem roundtrip_core (fs : FS) (P Q : Str) (hwf : WF fs) :
    Except.map (fun g => (create_zip_file g Q).toFinset)
      (extractArchive (create_zip_file fs P) (resolve Q)
        (freshTree (resolve Q))) = .ok (create_zip_file fs P).toFinset := by
  obtain ⟨hndf, hndd, hrt, hclosed, hparent, hnotdir⟩ := hwf
  have hEnd : (keysF (create_zip_file fs P)).Nodup :=
    create_zip_file_keys_nodup fs P hndf hndd
  have hEpf : ∀ e₁ ∈ keysF (create_zip_file fs P), ∀ e₂ ∈ keysF (create_zip_file fs P),
      e₁ <+: e₂ → e₁ = e₂ := create_zip_keys_prefix_free hclosed hparent hnotdir
  have hEne : ∀ e ∈ keysF (create_zip_file fs P), e ≠ [] :=
    fun e he => create_zip_keys_ne_nil he
  obtain ⟨g, hg, hgf, hgnd, hgcl, hgdest, hgpar⟩ :=
    extract_fresh (resolve Q) (create_zip_file fs P) hEnd hEpf hEne
  rw [hg]
  show Except.ok ((create_zip_file g Q).toFinset) =
    Except.ok (create_zip_file fs P).toFinset
  congr 1
  rw [create_zip_file_toFinset_eq g Q hgcl hgpar hgdest]
  rw [filesUnderSpec_of_map g (resolve Q) (create_zip_file fs P) hgf
    (fun ec hec => hEne ec.1 (List.mem_map.mpr ⟨ec, hec, rfl⟩))]

/-! ### Claims -/

/-- C1: counterexample to the claim as stated.  For the FileSet
`{"../x": "secret"}` and the empty destination root `"d"`, materialization
completes, yet no file at all exists under the root (and the content was
written at `x`, outside the root), so it is not the case that every path of
the FileSet exists under the destination root after materialization. -/
theorem C1_counterexample :
    Except.map (fun g => (filesUnderSpec g (resolve "d".toList),
        lookupF g.files (resolve "x".toList)))
      (create_file_structure [("../x".toList, "secret")] "d".toList
        (freshTree (resolve "d".toList))) = .ok ([], some "secret") := by
  rfl

/-- C1 (amended): for a FileSet whose names are plain relative paths (every
slash-separated component nonempty and neither `.` nor `..`), pairwise
distinct as component lists, and a destination root string that is nonempty
without a trailing slash: if `create_file_structure` completes on an empty
destination tree, the resulting files are exactly the FileSet's entries under
the root — each path present with byte-identical content and no extra file. -/
theorem C1_materialize_exact (F : List (Str × String)) (D : Str) (g : FS)
    (hsafe : ∀ fc ∈ F, safeName fc.1) (hD : D ≠ []) (hDl : D.getLast? ≠ some '/')
    (hnodup : (F.map (fun fc => splitOnSlash fc.1)).Nodup)
    (h : create_file_structure F D (freshTree (resolve D)) = .ok g) :
    g.files = F.map (fun fc => (resolve D ++ splitOnSlash fc.1, fc.2)) ∧
    filesUnderSpec g (resolve D) = F.map (fun fc => (splitOnSlash fc.1, fc.2)) := by
  have h1 := cfs_fresh_files F D (freshTree (resolve D)) g hsafe hD hDl
    (by intro fc hfc hmem; simp [freshTree, keysF] at hmem) hnodup h
  rw [show (freshTree (resolve D)).files = [] from rfl, List.nil_append] at h1
  refine ⟨h1, ?_⟩
  apply filesUnderSpec_of_map g (resolve D)
    (F.map (fun fc => (splitOnSlash fc.1, fc.2)))
  · rw [h1, List.map_map]
    rfl
  · intro ec hec
    obtain ⟨fc, hfc, rfl⟩ := List.mem_map.mp hec
    exact splitOnSlash_ne_nil fc.1

/-- C1 witness: the spec's concrete scenario `{"a/b.txt": "hello",
"c.txt": "world"}` into the empty root `"d"`. -/
theorem C1_materialize_exact_witness :
    (∀ fc ∈ ([("a/b.txt".toList, "hello"), ("c.txt".toList, "world")] :
        List (Str × String)), safeName fc.1) ∧
    ("d".toList : Str) ≠ [] ∧ ("d".toList : Str).getLast? ≠ some '/' ∧
    (([("a/b.txt".toList, "hello"), ("c.txt".toList, "world")] :
        List (Str × String)).map (fun fc => splitOnSlash fc.1)).Nodup ∧
    (create_file_structure [("a/b.txt".toList, "hello"), ("c.txt".toList, "world")]
        "d".toList (freshTree (resolve "d".toList)) = .ok
      (FS.mk [(["d".toList, "a".toList, "b.txt".toList], "hello"),
          (["d".toList, "c.txt".toList], "world")]
        [[], ["d".toList], ["d".toList, "a".toList]])) ∧
    ((FS.mk [(["d".toList, "a".toList, "b.txt".toList], "hello"),
          (["d".toList, "c.txt".toList], "world")]
        [[], ["d".toList], ["d".toList, "a".toList]]).files =
      ([("a/b.txt".toList, "hello"), ("c.txt".toList, "world")] :
          List (Str × String)).map
        (fun fc => (resolve "d".toList ++ splitOnSlash fc.1, fc.2)) ∧
    filesUnderSpec
        (FS.mk [(["d".toList, "a".toList, "b.txt".toList], "hello"),
            (["d".toList, "c.txt".toList], "world")]
          [[], ["d".toList], ["d".toList, "a".toList]]) (resolve "d".toList) =
      ([("a/b.txt".toList, "hello"), ("c.txt".toList, "world")] :
          List (Str × String)).map (fun fc => (splitOnSlash fc.1, fc.2))) :=
  ⟨by decide, by decide, by decide, by decide, by rfl,
    C1_materialize_exact _ _ _ (by decide) (by decide) (by decide) (by decide) (by rfl)⟩

/-- C2: for a well-formed filesystem whose archived root exists as a
directory, the archive's entry list produced by `create_zip_file` has
pairwise-distinct entry names and, as a set of (relative name, content)
pairs, equals the set of regular files strictly under the root with their
root-relative paths — each file exactly once, none duplicated or omitted. -/
theorem C2_zip_entries_exact (fs : FS) (P : Str) (hwf : WF fs)
    (hroot : resolve P ∈ fs.dirs) :
    (keysF (create_zip_file fs P)).Nodup ∧
    (create_zip_file fs P).toFinset = (filesUnderSpec fs (resolve P)).toFinset := by
  obtain ⟨hndf, hndd, -, hclosed, hparent, -⟩ := hwf
  exact ⟨create_zip_file_keys_nodup fs P hndf hndd,
    create_zip_file_toFinset_eq fs P hclosed hparent hroot⟩

/-- C2 witness: the materialized example tree under root `"d"`. -/
theorem C2_zip_entries_exact_witness :
    WF (FS.mk [(["d".toList, "a".toList, "b.txt".toList], "hello"),
        (["d".toList, "c.txt".toList], "world")]
      [[], ["d".toList], ["d".toList, "a".toList]]) ∧
    resolve "d".toList ∈ (FS.mk [(["d".toList, "a".toList, "b.txt".toList], "hello"),
        (["d".toList, "c.txt".toList], "world")]
      [[], ["d".toList], ["d".toList, "a".toList]]).dirs ∧
    ((keysF (create_zip_file (FS.mk [(["d".toList, "a".toList, "b.txt".toList], "hello"),
          (["d".toList, "c.txt".toList], "world")]
        [[], ["d".toList], ["d".toList, "a".toList]]) "d".toList)).Nodup ∧
    (create_zip_file (FS.mk [(["d".toList, "a".toList, "b.txt".toList], "hello"),
          (["d".toList, "c.txt".toList], "world")]
        [[], ["d".toList], ["d".toList, "a".toList]]) "d".toList).toFinset =
      (filesUnderSpec (FS.mk [(["d".toList, "a".toList, "b.txt".toList], "hello"),
          (["d".toList, "c.txt".toList], "world")]
        [[], ["d".toList], ["d".toList, "a".toList]]) (resolve "d".toList)).toFinset) :=
  ⟨by decide, by decide, C2_zip_entries_exact _ _ (by decide) (by decide)⟩

/-- C3: counterexample to the claim as stated.  The value handed to the
caller is `none` both for a failed build (nonzero exit) and for a successful
build whose artifact is missing, so the artifact-missing outcome is not
distinguishable by the caller from the build-failure outcome through the
function's return value. -/
theorem C3_counterexample :
    (build_apk (.completed 1 "" "boom" (FS.mk [] [[]])) "generated_app".toList).1 =
      (build_apk (.completed 0 "" "" (FS.mk [] [[]])) "generated_app".toList).1 ∧
    (build_apk (.completed 1 "" "boom" (FS.mk [] [[]])) "generated_app".toList).1 =
      none := by
  exact ⟨rfl, rfl⟩

/-- C3 (amended): nonzero exit returns `none` together with the
"APK build failed" diagnostic; zero exit with the artifact present at
`output_folder/app/build/outputs/apk/debug/app-debug.apk` returns that path;
zero exit with the artifact absent returns `none` with the distinct
"APK file not found after build." diagnostic — the two no-artifact outcomes
differ only in the emitted message, not in the returned value. -/
theorem C3_build_result_cases (rc : Int) (out err : String) (fsA : FS) (d : Str) :
    (rc ≠ 0 → build_apk (.completed rc out err fsA) d =
      (none, ["APK build failed: " ++ err])) ∧
    (rc = 0 → pathExistsB fsA (resolve (osJoin d apkRelStr)) = true →
      build_apk (.completed rc out err fsA) d = (some (osJoin d apkRelStr), [])) ∧
    (rc = 0 → pathExistsB fsA (resolve (osJoin d apkRelStr)) = false →
      build_apk (.completed rc out err fsA) d =
        (none, ["APK file not found after build."])) := by
  refine ⟨fun h1 => ?_, fun h1 h2 => ?_, fun h1 h2 => ?_⟩ <;>
    show (if rc ≠ 0 then ((none : Option Str), ["APK build failed: " ++ err])
      else if pathExistsB fsA (resolve (osJoin d apkRelStr)) = true
        then (some (osJoin d apkRelStr), [])
        else (none, ["APK file not found after build."])) = _
  · rw [if_pos h1]
  · rw [if_neg (by simp [h1]), if_pos h2]
  · rw [if_neg (by simp [h1]), if_neg (by simp [h2])]

/-- C3 witness: a failing build and an artifact-missing build at concrete
inputs. -/
theorem C3_build_result_cases_witness :
    build_apk (.completed 1 "" "boom" (FS.mk [] [[]])) "generated_app".toList =
      (none, ["APK build failed: " ++ "boom"]) ∧
    build_apk (.completed 0 "" "" (FS.mk [] [[]])) "generated_app".toList =
      (none, ["APK file not found after build."]) :=
  ⟨(C3_build_result_cases 1 "" "boom" (FS.mk [] [[]]) "generated_app".toList).1
      (by decide),
    (C3_build_result_cases 0 "" "" (FS.mk [] [[]]) "generated_app".toList).2.2 rfl
      (by rfl)⟩

/-- C4: `create_file_structure` performs no validation of relative paths:
materializing the FileSet `{"../x": "secret"}` into the root `"sandbox/app"`
succeeds, the content appears at `sandbox/x` — outside the destination root,
which is not a path prefix of the written location — and nothing is written
under the root. -/
theorem C4_traversal_escape :
    Except.map (fun g => (lookupF g.files (resolve "sandbox/x".toList),
        filesUnderSpec g (resolve "sandbox/app".toList)))
      (create_file_structure [("../x".toList, "secret")] "sandbox/app".toList
        (freshTree (resolve "sandbox/app".toList))) = .ok (some "secret", []) ∧
    ¬ resolve "sandbox/app".toList <+: resolve "sandbox/x".toList := by
  exact ⟨by rfl, by decide⟩

/-- C5: counterexample to the claim as stated.  Archiving a root that does
not exist as a directory does not fail: it silently returns an archive with
no entries (the walk swallows the scandir error). -/
theorem C5_counterexample :
    resolve "missing".toList ∉ (FS.mk ([] : List (Path × String)) [[]]).dirs ∧
    create_zip_file (FS.mk ([] : List (Path × String)) [[]]) "missing".toList = [] := by
  exact ⟨by decide, by rfl⟩

/-- C5 (amended): for every root path that does not resolve to an existing
directory, `create_zip_file` silently produces an archive with zero entries;
the missing-directory condition is swallowed by the directory walk
(`os.walk` with `onerror=None`) and never reported to the caller. -/
theorem C5_missing_root_empty (fs : FS) (s : Str) (h : resolve s ∉ fs.dirs) :
    create_zip_file fs s = [] := by
  unfold create_zip_file walk
  rw [if_neg h]
  rfl

/-- C5 witness: archiving the nonexistent root `"missing"` of a nonempty
tree yields the empty archive. -/
theorem C5_missing_root_empty_witness :
    resolve "missing".toList ∉ (FS.mk [(["d".toList, "c.txt".toList], "world")]
      [[], ["d".toList]]).dirs ∧
    create_zip_file (FS.mk [(["d".toList, "c.txt".toList], "world")]
      [[], ["d".toList]]) "missing".toList = [] :=
  ⟨by decide, C5_missing_root_empty _ _ (by decide)⟩

/-- C6: round-trip.  For a well-formed tree, extracting the archive of root P
into a fresh empty destination Q and re-archiving Q succeeds and yields an
archive whose set of (entry name, content) pairs is identical to the archive
produced directly from P. -/
theorem C6_roundtrip (fs : FS) (P Q : Str) (hwf : WF fs) :
    Except.map (fun g => (create_zip_file g Q).toFinset)
      (extractArchive (create_zip_file fs P) (resolve Q) (freshTree (resolve Q))) =
      .ok (create_zip_file fs P).toFinset :=
  roundtrip_core fs P Q hwf

/-- C6 witness: round-tripping the example tree from root `"d"` through the
fresh destination `"e2"`. -/
theorem C6_roundtrip_witness :
    WF (FS.mk [(["d".toList, "a".toList, "b.txt".toList], "hello"),
        (["d".toList, "c.txt".toList], "world")]
      [[], ["d".toList], ["d".toList, "a".toList]]) ∧
    Except.map (fun g => (create_zip_file g "e2".toList).toFinset)
      (extractArchive
        (create_zip_file (FS.mk [(["d".toList, "a".toList, "b.txt".toList], "hello"),
            (["d".toList, "c.txt".toList], "world")]
          [[], ["d".toList], ["d".toList, "a".toList]]) "d".toList)
        (resolve "e2".toList) (freshTree (resolve "e2".toList))) =
      .ok (create_zip_file (FS.mk [(["d".toList, "a".toList, "b.txt".toList], "hello"),
          (["d".toList, "c.txt".toList], "world")]
        [[], ["d".toList], ["d".toList, "a".toList]]) "d".toList).toFinset :=
  ⟨by decide, C6_roundtrip _ "d".toList "e2".toList (by decide)⟩

/-- C7: materialization is idempotent: if a run of `create_file_structure`
completes successfully, running it again with the same FileSet and
destination on the resulting filesystem succeeds and leaves the filesystem
(files and directories) exactly as it was — the same final tree as one run. -/
theorem C7_materialize_idempotent (F : List (Str × String)) (D : Str) (fs g : FS)
    (h : create_file_structure F D fs = .ok g) :
    create_file_structure F D g = .ok g :=
  cfs_idempotent F D fs g h

/-- C7 witness: running the example materialization twice. -/
theorem C7_materialize_idempotent_witness :
    create_file_structure [("a/b.txt".toList, "hello"), ("c.txt".toList, "world")]
      "d".toList (freshTree (resolve "d".toList)) = .ok
      (FS.mk [(["d".toList, "a".toList, "b.txt".toList], "hello"),
          (["d".toList, "c.txt".toList], "world")]
        [[], ["d".toList], ["d".toList, "a".toList]]) ∧
    create_file_structure [("a/b.txt".toList, "hello"), ("c.txt".toList, "world")]
      "d".toList
      (FS.mk [(["d".toList, "a".toList, "b.txt".toList], "hello"),
          (["d".toList, "c.txt".toList], "world")]
        [[], ["d".toList], ["d".toList, "a".toList]]) = .ok
      (FS.mk [(["d".toList, "a".toList, "b.txt".toList], "hello"),
          (["d".toList, "c.txt".toList], "world")]
        [[], ["d".toList], ["d".toList, "a".toList]]) :=
  ⟨by rfl, C7_materialize_idempotent _ _ (freshTree (resolve "d".toList)) _ (by rfl)⟩

/-- C8: if the FileSet contains an entry one of whose required ancestor
directories already exists as a regular file on the destination filesystem,
`create_file_structure` fails with an error (the exception is returned to the
caller, not swallowed): the run produces no Ok result. -/
theorem C8_conflict_error (F : List (Str × String)) (D : Str) (fs : FS)
    (f : Str) (c : String) (hmem : (f, c) ∈ F)
    (hconf : ∃ q ∈ prefixesOf (resolve (dirname (osJoin D f))),
      q ∈ keysF fs.files) :
    (create_file_structure F D fs).toOption = none :=
  cfs_conflict_error F D f c fs hmem hconf

/-- C8 witness: writing `a/b.txt` under root `"d"` when `d/a` already exists
as a regular file. -/
theorem C8_conflict_error_witness :
    (("a/b.txt".toList, ("y" : String)) ∈
      ([("a/b.txt".toList, "y")] : List (Str × String))) ∧
    (∃ q ∈ prefixesOf (resolve (dirname (osJoin "d".toList "a/b.txt".toList))),
      q ∈ keysF (FS.mk [(["d".toList, "a".toList], "oops")]
        [[], ["d".toList]]).files) ∧
    (create_file_structure [("a/b.txt".toList, "y")] "d".toList
      (FS.mk [(["d".toList, "a".toList], "oops")] [[], ["d".toList]])).toOption =
      none :=
  ⟨by decide, by decide,
    C8_conflict_error _ _ _ "a/b.txt".toList "y" (by decide) (by decide)⟩

/-- C9: the downloadable archive's file name is deterministic:
`android_app.zip` when timestamping is disabled and
`android_app_<YYYYMMDD_HHMMSS>.zip` when enabled, where the rendered
timestamp is always exactly 15 characters (8 date digits, an underscore,
6 time digits). -/
theorem C9_zip_file_name (t : DateTime) :
    zip_file_name false t = "android_app.zip" ∧
    zip_file_name true t = "android_app_" ++ strftimeOut t ++ ".zip" ∧
    (strftimeOut t).length = 15 := by
  refine ⟨rfl, ?_, ?_⟩
  · show "android_app" ++ ("_" ++ strftimeOut t) ++ ".zip" =
      "android_app_" ++ strftimeOut t ++ ".zip"
    rw [← String.append_assoc]
    rfl
  · have l4 : ∀ n, (pad4 n).length = 4 := fun n => rfl
    have l2 : ∀ n, (pad2 n).length = 2 := fun n => rfl
    unfold strftimeOut
    simp [String.length_append, l4, l2]
    rfl

/-- C10: `build_apk` is total at its public interface — every modelled
outcome of the external process (completion with any exit status, artifact
present or absent, or a raised exception) produces a returned value rather
than a propagated exception; and whenever the caller receives a path, the
process completed with exit status 0 and the artifact existed at that exact
expected path at the time of the check. -/
theorem C10_build_apk_total (o : ProcOutcome) (d : Str) (p : Str)
    (h : (build_apk o d).1 = some p) :
    ∃ rc out err fsA, o = .completed rc out err fsA ∧ rc = 0 ∧
      p = osJoin d apkRelStr ∧ pathExistsB fsA (resolve p) = true := by
  cases o with
  | raised e => simp [build_apk] at h
  | completed rc out err fsA =>
    have h' : (if rc ≠ 0 then ((none : Option Str), ["APK build failed: " ++ err])
        else if pathExistsB fsA (resolve (osJoin d apkRelStr)) = true
          then (some (osJoin d apkRelStr), [])
          else ((none : Option Str), ["APK file not found after build."])).1 =
        some p := h
    by_cases h1 : rc ≠ 0
    · rw [if_pos h1] at h'
      simp at h'
    · rw [if_neg h1] at h'
      push_neg at h1
      by_cases h2 : pathExistsB fsA (resolve (osJoin d apkRelStr)) = true
      · rw [if_pos h2] at h'
        simp at h'
        refine ⟨rc, out, err, fsA, rfl, h1, h'.symm, ?_⟩
        rw [← h']
        exact h2
      · rw [if_neg h2] at h'
        simp at h'

/-- C10 witness: a completed build with exit status 0 and the artifact file
present under root `"d"`. -/
theorem C10_build_apk_total_witness :
    (build_apk (.completed 0 "" ""
        (FS.mk [(["d".toList] ++ splitOnSlash apkRelStr, "bin")] [[]]))
      "d".toList).1 = some (osJoin "d".toList apkRelStr) ∧
    (∃ rc out err fsA,
      (ProcOutcome.completed 0 "" ""
        (FS.mk [(["d".toList] ++ splitOnSlash apkRelStr, "bin")] [[]])) =
        .completed rc out err fsA ∧ rc = 0 ∧
      osJoin "d".toList apkRelStr = osJoin "d".toList apkRelStr ∧
      pathExistsB fsA (resolve (osJoin "d".toList apkRelStr)) = true) :=
  ⟨by rfl, C10_build_apk_total _ "d".toList _ (by rfl)⟩

end App
